import Mathlib

/-!
# MyContainer: iteration-order policies over a dynamic array

A shallow embedding of `include/MyContainer.hpp` (namespace `ariel`) and of the
`collect` helper of `tests.cpp`.

* `std::vector<T>` is a `List T`; `std::vector<size_type>` is a `List Nat`.
  Every `size_type` value that the code computes is bounded by `data.size()`
  (the only subtractions are guarded by `left < right` and `mid >= offset`), so
  no arithmetic wraps and `Nat` is exact.
* The element type only has to supply `operator<` and `operator==` (the
  `static_assert`); `PolicyDescending` additionally uses `operator>`.  They are
  the fields of `ElemOps`.
* `std::sort` is library code.  It is a parameter `sort : SortFn` of the three
  policies that call it, and what the C++ standard promises about it is the
  predicate `SortContract`: when the comparator is a strict weak ordering of the
  elements of the range, the result is a rearrangement of the range in which no
  later element compares less than an earlier one.  Nothing is promised about the
  relative order of equivalent elements.
* `std_sort` is that library call as GCC's libstdc++ implements it (namespace
  `libstdcxx`); it is what the sorting policies are evaluated with on concrete
  containers.
* `removeElement` takes its argument by `const T&` and hands the reference to
  `std::remove`, which compares against it while it overwrites the vector.  The
  argument is therefore a `ConstRef`: an object outside the container, or one of
  its slots, read anew at every comparison.
* Reading a vector out of range, or dereferencing through a null container, is
  undefined behaviour; `Iterator.deref` answers `none` there.
-/

namespace ariel

/-! ## Element operations -/

/-- Operators of the element type `T`: `operator<`, `operator>` and `operator==`. -/
structure ElemOps (T : Type) where
  lt : T → T → Bool
  gt : T → T → Bool
  eq : T → T → Bool

/-- Built-in operators of `int`. -/
def intOps : ElemOps Int :=
  ⟨fun a b => decide (a < b), fun a b => decide (a > b), fun a b => decide (a = b)⟩

/-- Signature of `std::sort(first, last, comp)` on a vector of indices. -/
abbrev SortFn := (Nat → Nat → Bool) → List Nat → List Nat

/-! ## Library algorithms on vectors -/

/-- Effect of `order.resize(n)` on a `std::vector<size_type>`: truncate, or pad with
value-initialised entries. -/
def vec_resize (order : List Nat) (n : Nat) : List Nat :=
  order.take n ++ List.replicate (n - order.length) 0

/-- Effect of `std::iota(order.begin(), order.end(), start)`: every slot is overwritten with
successive values. -/
def std_iota (order : List Nat) (start : Nat) : List Nat :=
  List.range' start order.length

/-- Effect of `std::reverse(order.begin(), order.end())`. -/
def std_reverse (order : List Nat) : List Nat :=
  order.reverse

/-- A `const T&` argument: a reference to an object that is no element of the container's
vector, or to the element in slot `k` of it (what `*it` of one of the iterators is). -/
inductive ConstRef (T : Type) where
  | object : T → ConstRef T
  | element : Nat → ConstRef T

/-- The value a reference denotes while the vector holds `data`; `none` for a slot that does
not exist. -/
def ConstRef.read {T : Type} (r : ConstRef T) (data : List T) : Option T :=
  match r with
  | ConstRef.object v => some v
  | ConstRef.element k => data[k]?

/-- The predicate `__iter_equals_val(__value)` of `std::remove` at the iterator `it`:
`*it == __value`, both read from the vector as it is at that moment. -/
def iter_equals_val {T : Type} (ops : ElemOps T) (data : List T) (value : ConstRef T)
    (it : Nat) : Bool :=
  match data[it]?, value.read data with
  | some x, some v => ops.eq x v
  | _, _ => false

/-- Function `std::__find_if(first, last, pred)` for the predicate above, `count` being
`last - first`: the first iterator at which the predicate holds, or `last`. -/
def find_if {T : Type} (ops : ElemOps T) (data : List T) (value : ConstRef T) :
    Nat → Nat → Nat
  | 0, first => first
  | count + 1, first =>
    if iter_equals_val ops data value first then first
    else find_if ops data value count (first + 1)

/-- The loop `for (; first != last; ++first) if (!pred(first)) *result++ = move(*first);` of
`std::__remove_if`, `count` being `last - first`.  The result is the vector after the loop and
`result`.  The move assignment is taken as a copy, which it is for `int` and the other
trivially copyable element types; a type that really moves leaves the source slot in an
unspecified state, and such a slot is read again only through a reference to it on which `==`
is not reflexive. -/
def remove_if_loop {T : Type} (ops : ElemOps T) (value : ConstRef T) :
    Nat → List T → Nat → Nat → List T × Nat
  | 0, data, result, _ => (data, result)
  | count + 1, data, result, first =>
    if iter_equals_val ops data value first then
      remove_if_loop ops value count data result (first + 1)
    else
      match data[first]? with
      | some x => remove_if_loop ops value count (data.set result x) (result + 1) (first + 1)
      | none => remove_if_loop ops value count data result (first + 1)

/-- Function `std::remove(first, last, value)` over the whole vector, as libstdc++ implements it
(`std::__remove_if`): find the first match, then move every later element that does not match
down.  `value` is a reference, read again at every comparison.  The result is the vector after
the call and the returned position `new_end`. -/
def std_remove {T : Type} (ops : ElemOps T) (data : List T) (value : ConstRef T) :
    List T × Nat :=
  let first := find_if ops data value data.length 0
  if first = data.length then (data, first)
  else remove_if_loop ops value (data.length - (first + 1)) data first (first + 1)

/-- Effect of `data.erase(data.begin() + first, data.end())`. -/
def vec_erase_to_end {T : Type} (data : List T) (first : Nat) : List T :=
  data.take first

/-! ## The container -/

/-- Class `MyContainer<T>`: the backing vector `data_`, together with the address `this` of the
object, which is what iterators compare. -/
structure MyContainer (T : Type) where
  this : Nat
  data_ : List T

/-- The exception `removeElement` throws. -/
inductive Exception where
  | out_of_range : String → Exception
  deriving DecidableEq, Repr

namespace MyContainer

/-- Method `addElement`: `data_.push_back(value)`. -/
def addElement {T : Type} (c : MyContainer T) (value : T) : MyContainer T :=
  ⟨c.this, c.data_ ++ [value]⟩

/-- Method `removeElement(const T& value)`: `std::remove` with the reference it was given, throw
when nothing was removed, otherwise erase the tail. -/
def removeElement {T : Type} (ops : ElemOps T) (c : MyContainer T) (value : ConstRef T) :
    Except Exception (MyContainer T) :=
  let r := std_remove ops c.data_ value
  let new_end := r.2
  if new_end = r.1.length then
    Except.error (Exception.out_of_range "Element not found in MyContainer")
  else
    Except.ok ⟨c.this, vec_erase_to_end r.1 new_end⟩

/-- Method `size`. -/
def size {T : Type} (c : MyContainer T) : Nat :=
  c.data_.length

/-- Method `removeElement` with the container made explicit on both ways out: the object after
the call, and whether the call returned or threw.  `std::remove` has run in either case; the
tail is erased only when the call returns. -/
def removeElementRun {T : Type} (ops : ElemOps T) (c : MyContainer T) (value : ConstRef T) :
    MyContainer T × Except Exception Unit :=
  let r := std_remove ops c.data_ value
  let new_end := r.2
  if new_end = r.1.length then
    (⟨c.this, r.1⟩, Except.error (Exception.out_of_range "Element not found in MyContainer"))
  else
    (⟨c.this, vec_erase_to_end r.1 new_end⟩, Except.ok ())

/-- The loop `for (i = ...; i < c.data_.size(); ++i)` of `operator<<`, writing to the stream
`os`; `render` is the element type's own `operator<<`. -/
def printLoop {T : Type} (render : T → String) (data : List T) (i : Nat) (os : String) : String :=
  if h : i < data.length then
    let os1 := os ++ render data[i]
    let os2 := if i + 1 < data.length then os1 ++ ", " else os1
    printLoop render data (i + 1) os2
  else
    os
termination_by data.length - i
decreasing_by omega

/-- Friend `operator<<(os, c)`: the characters written so far are `os`, the result is the
stream after the call.  The container is a `const&` argument: it is read, never returned. -/
def operator_lshift {T : Type} (render : T → String) (os : String) (c : MyContainer T) : String :=
  printLoop render c.data_ 0 (os ++ "[") ++ "]"

/-- The loop `for (v : values) c.addElement(v)` of the test-suite. -/
def addEach {T : Type} (c : MyContainer T) (values : List T) : MyContainer T :=
  values.foldl addElement c

/-- The loop `for (v : values) c.removeElement(v)` of the test-suite, whose loop variable is an
object of its own; the first exception ends it. -/
def removeEach {T : Type} (ops : ElemOps T) : MyContainer T → List T →
    Except Exception (MyContainer T)
  | c, [] => Except.ok c
  | c, v :: values =>
    match removeElement ops c (ConstRef.object v) with
    | Except.error e => Except.error e
    | Except.ok c1 => removeEach ops c1 values

end MyContainer

/-! ## Order policies -/

/-- Comparator `[&data](a, b) { return data[a] < data[b]; }`.  Out of range there is nothing to
compare; the policies only pass indices below `data.size()`. -/
def idxLess {T : Type} (ops : ElemOps T) (data : List T) (a b : Nat) : Bool :=
  match data[a]?, data[b]? with
  | some x, some y => ops.lt x y
  | _, _ => false

/-- Comparator `[&data](a, b) { return data[a] > data[b]; }`. -/
def idxGreater {T : Type} (ops : ElemOps T) (data : List T) (a b : Nat) : Bool :=
  match data[a]?, data[b]? with
  | some x, some y => ops.gt x y
  | _, _ => false

namespace PolicyOrder

/-- Function `PolicyOrder::build`. -/
def build {T : Type} (order : List Nat) (data : List T) : List Nat :=
  std_iota (vec_resize order data.length) 0

end PolicyOrder

namespace PolicyReverse

/-- Function `PolicyReverse::build`. -/
def build {T : Type} (order : List Nat) (data : List T) : List Nat :=
  std_reverse (std_iota (vec_resize order data.length) 0)

end PolicyReverse

namespace PolicyAscending

/-- Function `PolicyAscending::build`. -/
def build {T : Type} (sort : SortFn) (ops : ElemOps T) (order : List Nat) (data : List T) :
    List Nat :=
  sort (idxLess ops data) (std_iota (vec_resize order data.length) 0)

end PolicyAscending

namespace PolicyDescending

/-- Function `PolicyDescending::build`. -/
def build {T : Type} (sort : SortFn) (ops : ElemOps T) (order : List Nat) (data : List T) :
    List Nat :=
  sort (idxGreater ops data) (std_iota (vec_resize order data.length) 0)

end PolicyDescending

namespace PolicySideCross

/-- The `while (left < right)` loop of `PolicySideCross::build`. -/
def loop (sorted_idx : List Nat) (left right : Nat) (order : List Nat) : List Nat :=
  if left < right then
    let order1 := order ++ [sorted_idx.getD left 0]
    let left1 := left + 1
    let right1 := right - 1
    let order2 := if left1 < right1 then order1 ++ [sorted_idx.getD right1 0] else order1
    loop sorted_idx left1 right1 order2
  else
    order
termination_by right - left
decreasing_by omega

/-- Function `PolicySideCross::build`. -/
def build {T : Type} (sort : SortFn) (ops : ElemOps T) (_order : List Nat) (data : List T) :
    List Nat :=
  let sorted_idx := sort (idxLess ops data) (std_iota (List.replicate data.length 0) 0)
  loop sorted_idx 0 sorted_idx.length []

end PolicySideCross

namespace PolicyMiddleOut

/-- The `for (offset = 1; offset <= mid; ++offset)` loop of `PolicyMiddleOut::build`. -/
def loop (n mid offset : Nat) (order : List Nat) : List Nat :=
  if offset ≤ mid then
    let order1 := if mid ≥ offset then order ++ [mid - offset] else order
    let order2 := if mid + offset < n then order1 ++ [mid + offset] else order1
    loop n mid (offset + 1) order2
  else
    order
termination_by mid + 1 - offset
decreasing_by omega

/-- Function `PolicyMiddleOut::build`. -/
def build {T : Type} (order : List Nat) (data : List T) : List Nat :=
  let n := data.length
  if n = 0 then order
  else
    let mid := n / 2
    loop n mid 1 (order ++ [mid])

end PolicyMiddleOut

/-- The six policy types an `Iterator` can be instantiated with. -/
inductive OrderPolicy where
  | PolicyOrder
  | PolicyReverse
  | PolicyAscending
  | PolicyDescending
  | PolicySideCross
  | PolicyMiddleOut
  deriving DecidableEq, Repr

/-- Dispatch of `OrderPolicy::build`. -/
def OrderPolicy.build {T : Type} (sort : SortFn) (ops : ElemOps T) (P : OrderPolicy)
    (order : List Nat) (data : List T) : List Nat :=
  match P with
  | .PolicyOrder => PolicyOrder.build order data
  | .PolicyReverse => PolicyReverse.build order data
  | .PolicyAscending => PolicyAscending.build sort ops order data
  | .PolicyDescending => PolicyDescending.build sort ops order data
  | .PolicySideCross => PolicySideCross.build sort ops order data
  | .PolicyMiddleOut => PolicyMiddleOut.build order data

/-! ## The iterator -/

/-- Class `Iterator<OrderPolicy>`: the container pointer (`none` is `nullptr`), the index order
and the position. -/
structure Iterator (T : Type) (P : OrderPolicy) where
  container_ : Option (MyContainer T)
  order_ : List Nat
  pos_ : Nat

namespace Iterator

/-- Constructor `Iterator(c, at_end)`. -/
def new {T : Type} (sort : SortFn) (ops : ElemOps T) (P : OrderPolicy)
    (c : Option (MyContainer T)) (at_end : Bool) : Iterator T P :=
  match c with
  | none => ⟨none, [], 0⟩
  | some cont =>
    let order := P.build sort ops [] cont.data_
    ⟨some cont, order, if at_end then order.length else 0⟩

/-- Operator `*`: `container_->data_[order_[pos_]]`. -/
def deref {T : Type} {P : OrderPolicy} (it : Iterator T P) : Option T :=
  match it.container_ with
  | none => none
  | some cont =>
    match it.order_[it.pos_]? with
    | none => none
    | some idx => cont.data_[idx]?

/-- Operator `*` as the reference it returns: the slot of `container_->data_` it denotes. -/
def ref {T : Type} {P : OrderPolicy} (it : Iterator T P) : Option (ConstRef T) :=
  match it.container_ with
  | none => none
  | some cont =>
    match it.order_[it.pos_]? with
    | none => none
    | some idx => if idx < cont.data_.length then some (ConstRef.element idx) else none

/-- Operator `++` (prefix). -/
def next {T : Type} {P : OrderPolicy} (it : Iterator T P) : Iterator T P :=
  ⟨it.container_, it.order_, it.pos_ + 1⟩

/-- Operator `==`: same position and same container object. -/
def eq {T : Type} {P : OrderPolicy} (a b : Iterator T P) : Bool :=
  decide (a.pos_ = b.pos_) &&
    decide (a.container_.map MyContainer.this = b.container_.map MyContainer.this)

/-- Operator `!=`. -/
def ne {T : Type} {P : OrderPolicy} (a b : Iterator T P) : Bool :=
  !(eq a b)

end Iterator

/-- Helper `collect(first, last)` of the test-suite: the loop
`for (; first != last; ++first) out.push_back(*first)`, run for at most `fuel` iterations.
`none` when the fuel runs out or a dereference is undefined. -/
def collectLoop {T : Type} {P : OrderPolicy} :
    Nat → Iterator T P → Iterator T P → List T → Option (List T)
  | 0, _, _, _ => none
  | fuel + 1, first, last, out =>
    if Iterator.ne first last then
      match first.deref with
      | none => none
      | some x => collectLoop fuel first.next last (out ++ [x])
    else
      some out

/-- Helper `collect(first, last)`, with an empty `out` to start from. -/
def collect {T : Type} {P : OrderPolicy} (fuel : Nat) (first last : Iterator T P) :
    Option (List T) :=
  collectLoop fuel first last []

namespace MyContainer

/-- The accessor `begin_<policy>()`, for any policy `P`: `Iterator<P>(this, false)`. -/
def begin_ {T : Type} (sort : SortFn) (ops : ElemOps T) (P : OrderPolicy) (c : MyContainer T) :
    Iterator T P :=
  Iterator.new sort ops P (some c) false

/-- The accessor `end_<policy>()`, for any policy `P`: `Iterator<P>(this, true)`. -/
def end_ {T : Type} (sort : SortFn) (ops : ElemOps T) (P : OrderPolicy) (c : MyContainer T) :
    Iterator T P :=
  Iterator.new sort ops P (some c) true

/-- Accessor `begin_order()`. -/
def begin_order {T : Type} (sort : SortFn) (ops : ElemOps T) (c : MyContainer T) :
    Iterator T OrderPolicy.PolicyOrder :=
  Iterator.new sort ops OrderPolicy.PolicyOrder (some c) false

/-- Accessor `end_order()`. -/
def end_order {T : Type} (sort : SortFn) (ops : ElemOps T) (c : MyContainer T) :
    Iterator T OrderPolicy.PolicyOrder :=
  Iterator.new sort ops OrderPolicy.PolicyOrder (some c) true

/-- Accessor `begin_reverse_order()`. -/
def begin_reverse_order {T : Type} (sort : SortFn) (ops : ElemOps T) (c : MyContainer T) :
    Iterator T OrderPolicy.PolicyReverse :=
  Iterator.new sort ops OrderPolicy.PolicyReverse (some c) false

/-- Accessor `end_reverse_order()`. -/
def end_reverse_order {T : Type} (sort : SortFn) (ops : ElemOps T) (c : MyContainer T) :
    Iterator T OrderPolicy.PolicyReverse :=
  Iterator.new sort ops OrderPolicy.PolicyReverse (some c) true

/-- Accessor `begin_ascending_order()`. -/
def begin_ascending_order {T : Type} (sort : SortFn) (ops : ElemOps T) (c : MyContainer T) :
    Iterator T OrderPolicy.PolicyAscending :=
  Iterator.new sort ops OrderPolicy.PolicyAscending (some c) false

/-- Accessor `end_ascending_order()`. -/
def end_ascending_order {T : Type} (sort : SortFn) (ops : ElemOps T) (c : MyContainer T) :
    Iterator T OrderPolicy.PolicyAscending :=
  Iterator.new sort ops OrderPolicy.PolicyAscending (some c) true

/-- Accessor `begin_descending_order()`. -/
def begin_descending_order {T : Type} (sort : SortFn) (ops : ElemOps T) (c : MyContainer T) :
    Iterator T OrderPolicy.PolicyDescending :=
  Iterator.new sort ops OrderPolicy.PolicyDescending (some c) false

/-- Accessor `end_descending_order()`. -/
def end_descending_order {T : Type} (sort : SortFn) (ops : ElemOps T) (c : MyContainer T) :
    Iterator T OrderPolicy.PolicyDescending :=
  Iterator.new sort ops OrderPolicy.PolicyDescending (some c) true

/-- Accessor `begin_side_cross_order()`. -/
def begin_side_cross_order {T : Type} (sort : SortFn) (ops : ElemOps T) (c : MyContainer T) :
    Iterator T OrderPolicy.PolicySideCross :=
  Iterator.new sort ops OrderPolicy.PolicySideCross (some c) false

/-- Accessor `end_side_cross_order()`. -/
def end_side_cross_order {T : Type} (sort : SortFn) (ops : ElemOps T) (c : MyContainer T) :
    Iterator T OrderPolicy.PolicySideCross :=
  Iterator.new sort ops OrderPolicy.PolicySideCross (some c) true

/-- Accessor `begin_middle_out_order()`. -/
def begin_middle_out_order {T : Type} (sort : SortFn) (ops : ElemOps T) (c : MyContainer T) :
    Iterator T OrderPolicy.PolicyMiddleOut :=
  Iterator.new sort ops OrderPolicy.PolicyMiddleOut (some c) false

/-- Accessor `end_middle_out_order()`. -/
def end_middle_out_order {T : Type} (sort : SortFn) (ops : ElemOps T) (c : MyContainer T) :
    Iterator T OrderPolicy.PolicyMiddleOut :=
  Iterator.new sort ops OrderPolicy.PolicyMiddleOut (some c) true

/-- The traversal `collect(c.begin_<policy>(), c.end_<policy>())`. -/
def traverse {T : Type} (sort : SortFn) (ops : ElemOps T) (P : OrderPolicy) (fuel : Nat)
    (c : MyContainer T) : Option (List T) :=
  collect fuel (c.begin_ sort ops P) (c.end_ sort ops P)

end MyContainer

/-- A straight insertion sort, one of the algorithms `std::sort` may be. -/
def insertSorted (comp : Nat → Nat → Bool) (a : Nat) : List Nat → List Nat
  | [] => [a]
  | b :: l => if comp a b then a :: b :: l else b :: insertSorted comp a l

/-- Insertion sort building the result from the back of the range. -/
def insertionSort (comp : Nat → Nat → Bool) : List Nat → List Nat
  | [] => []
  | a :: l => insertSorted comp a (insertionSort comp l)

/-! ## `std::sort` in libstdc++

A transcription of `std::sort` as GCC's libstdc++ implements it (`bits/stl_algo.h`,
`bits/stl_heap.h`): introsort with a median-of-three partition down to ranges of 16 elements, a
heap sort when the depth limit is used up, then a final insertion sort.  The vector is a list,
iterators are positions in it.  The unguarded loops rely on the comparator being a strict weak
ordering; where they would leave the vector the run is undefined and the result is `none`. -/

namespace libstdcxx

/-- The constant `_S_threshold`. -/
def S_threshold : Nat := 16

/-- Function `std::__lg`: the floor of the binary logarithm of `n > 0`; the first argument bounds
the number of halvings and is `n` itself at the call. -/
def lg : Nat → Nat → Nat
  | 0, _ => 0
  | fuel + 1, n => if n ≤ 1 then 0 else lg fuel (n / 2) + 1

/-- The call `__comp(__a, __b)` on two iterators of the vector `v`; `none` when one of them is
outside the vector (the read is undefined). -/
def compAt (comp : Nat → Nat → Bool) (v : List Nat) (a b : Nat) : Option Bool :=
  match v[a]?, v[b]? with
  | some x, some y => some (comp x y)
  | _, _ => none

/-- Function `std::iter_swap`. -/
def iter_swap (v : List Nat) (a b : Nat) : Option (List Nat) :=
  match v[a]?, v[b]? with
  | some x, some y => some ((v.set a y).set b x)
  | _, _ => none

/-- Function `std::__move_median_to_first`. -/
def move_median_to_first (comp : Nat → Nat → Bool) (v : List Nat) (result a b c : Nat) :
    Option (List Nat) :=
  match compAt comp v a b with
  | none => none
  | some true =>
    match compAt comp v b c with
    | none => none
    | some true => iter_swap v result b
    | some false =>
      match compAt comp v a c with
      | none => none
      | some true => iter_swap v result c
      | some false => iter_swap v result a
  | some false =>
    match compAt comp v a c with
    | none => none
    | some true => iter_swap v result a
    | some false =>
      match compAt comp v b c with
      | none => none
      | some true => iter_swap v result c
      | some false => iter_swap v result b

/-- The loop `while (__comp(__first, __pivot)) ++__first;` of `__unguarded_partition`. -/
def partition_advance (comp : Nat → Nat → Bool) (v : List Nat) (pivot : Nat) :
    Nat → Nat → Option Nat
  | 0, _ => none
  | fuel + 1, first =>
    match compAt comp v first pivot with
    | none => none
    | some true => partition_advance comp v pivot fuel (first + 1)
    | some false => some first

/-- The loop `while (__comp(__pivot, __last)) --__last;` of `__unguarded_partition`. -/
def partition_retreat (comp : Nat → Nat → Bool) (v : List Nat) (pivot : Nat) :
    Nat → Nat → Option Nat
  | 0, _ => none
  | fuel + 1, last =>
    match compAt comp v pivot last with
    | none => none
    | some true => if last = 0 then none else partition_retreat comp v pivot fuel (last - 1)
    | some false => some last

/-- Function `std::__unguarded_partition`; the result is the vector and the returned iterator. -/
def unguarded_partition (comp : Nat → Nat → Bool) (pivot : Nat) :
    Nat → List Nat → Nat → Nat → Option (List Nat × Nat)
  | 0, _, _, _ => none
  | fuel + 1, v, first, last =>
    match partition_advance comp v pivot (v.length + 1) first with
    | none => none
    | some first1 =>
      if last = 0 then none
      else
        match partition_retreat comp v pivot (v.length + 1) (last - 1) with
        | none => none
        | some last1 =>
          if first1 < last1 then
            match iter_swap v first1 last1 with
            | none => none
            | some v1 => unguarded_partition comp pivot fuel v1 (first1 + 1) last1
          else some (v, first1)

/-- Function `std::__unguarded_partition_pivot`. -/
def unguarded_partition_pivot (comp : Nat → Nat → Bool) (v : List Nat) (first last : Nat) :
    Option (List Nat × Nat) :=
  let mid := first + (last - first) / 2
  match move_median_to_first comp v first (first + 1) mid (last - 1) with
  | none => none
  | some v1 => unguarded_partition comp first (v.length + 1) v1 (first + 1) last

/-- Function `std::__push_heap`, with `__comp(__first + __parent, __value)`. -/
def push_heap (comp : Nat → Nat → Bool) (first topIndex value : Nat) :
    Nat → List Nat → Nat → Option (List Nat)
  | 0, _, _ => none
  | fuel + 1, v, holeIndex =>
    let parent := (holeIndex - 1) / 2
    if holeIndex > topIndex then
      match v[first + parent]? with
      | none => none
      | some p =>
        if comp p value then
          push_heap comp first topIndex value fuel (v.set (first + holeIndex) p) parent
        else some (v.set (first + holeIndex) value)
    else some (v.set (first + holeIndex) value)

/-- The loop `while (__secondChild < (__len - 1) / 2)` of `__adjust_heap`; the result is the
vector, `__holeIndex` and `__secondChild`. -/
def adjust_heap_descend (comp : Nat → Nat → Bool) (first len : Nat) :
    Nat → List Nat → Nat → Nat → Option (List Nat × Nat × Nat)
  | 0, _, _, _ => none
  | fuel + 1, v, holeIndex, secondChild =>
    if secondChild < (len - 1) / 2 then
      let child := 2 * (secondChild + 1)
      match compAt comp v (first + child) (first + (child - 1)) with
      | none => none
      | some c =>
        let child1 := if c then child - 1 else child
        match v[first + child1]? with
        | none => none
        | some x => adjust_heap_descend comp first len fuel (v.set (first + holeIndex) x) child1 child1
    else some (v, holeIndex, secondChild)

/-- Function `std::__adjust_heap`. -/
def adjust_heap (comp : Nat → Nat → Bool) (v : List Nat) (first holeIndex len value : Nat) :
    Option (List Nat) :=
  match adjust_heap_descend comp first len (len + 1) v holeIndex holeIndex with
  | none => none
  | some (v1, hole1, secondChild) =>
    if len % 2 = 0 ∧ 2 ≤ len ∧ secondChild = (len - 2) / 2 then
      let child := 2 * (secondChild + 1)
      match v1[first + (child - 1)]? with
      | none => none
      | some x =>
        push_heap comp first holeIndex value (len + 1) (v1.set (first + hole1) x) (child - 1)
    else push_heap comp first holeIndex value (len + 1) v1 hole1

/-- Function `std::__pop_heap`. -/
def pop_heap (comp : Nat → Nat → Bool) (v : List Nat) (first last result : Nat) :
    Option (List Nat) :=
  match v[result]?, v[first]? with
  | some value, some top => adjust_heap comp (v.set result top) first 0 (last - first) value
  | _, _ => none

/-- The loop of `std::__make_heap`, from `__parent` down to 0. -/
def make_heap_loop (comp : Nat → Nat → Bool) (first len : Nat) :
    Nat → List Nat → Option (List Nat)
  | parent, v =>
    match v[first + parent]? with
    | none => none
    | some value =>
      match adjust_heap comp v first parent len value with
      | none => none
      | some v1 =>
        match parent with
        | 0 => some v1
        | p + 1 => make_heap_loop comp first len p v1

/-- Function `std::__make_heap`. -/
def make_heap (comp : Nat → Nat → Bool) (v : List Nat) (first last : Nat) : Option (List Nat) :=
  if last - first < 2 then some v
  else make_heap_loop comp first (last - first) ((last - first - 2) / 2) v

/-- Function `std::__sort_heap`: `count` is `__last - __first`. -/
def sort_heap (comp : Nat → Nat → Bool) (first : Nat) : Nat → List Nat → Option (List Nat)
  | 0, v => some v
  | count + 1, v =>
    if count + 1 > 1 then
      match pop_heap comp v first (first + count) (first + count) with
      | none => none
      | some v1 => sort_heap comp first count v1
    else some v

/-- The loop `for (__i = __middle; __i < __last; ++__i)` of `std::__heap_select`. -/
def heap_select_loop (comp : Nat → Nat → Bool) (first middle : Nat) :
    Nat → List Nat → Nat → Option (List Nat)
  | 0, v, _ => some v
  | count + 1, v, i =>
    match compAt comp v i first with
    | none => none
    | some true =>
      match pop_heap comp v first middle i with
      | none => none
      | some v1 => heap_select_loop comp first middle count v1 (i + 1)
    | some false => heap_select_loop comp first middle count v (i + 1)

/-- Function `std::__partial_sort`: `__heap_select`, then `__sort_heap`. -/
def partial_sort (comp : Nat → Nat → Bool) (v : List Nat) (first middle last : Nat) :
    Option (List Nat) :=
  match make_heap comp v first middle with
  | none => none
  | some v1 =>
    match heap_select_loop comp first middle (last - middle) v1 middle with
    | none => none
    | some v2 => sort_heap comp first (middle - first) v2

/-- Function `std::__introsort_loop`; each turn of its `while` loop is a call with the depth limit
decremented. -/
def introsort_loop (comp : Nat → Nat → Bool) : Nat → List Nat → Nat → Nat → Option (List Nat)
  | 0, v, first, last =>
    if last - first > S_threshold then partial_sort comp v first last last else some v
  | depth_limit + 1, v, first, last =>
    if last - first > S_threshold then
      match unguarded_partition_pivot comp v first last with
      | none => none
      | some (v1, cut) =>
        match introsort_loop comp depth_limit v1 cut last with
        | none => none
        | some v2 => introsort_loop comp depth_limit v2 first cut
    else some v

/-- The loop of `std::__unguarded_linear_insert`, with `__comp(__val, __next)`. -/
def linear_insert_loop (comp : Nat → Nat → Bool) (val : Nat) :
    Nat → List Nat → Nat → Option (List Nat)
  | 0, _, _ => none
  | fuel + 1, v, last =>
    if last = 0 then none
    else
      match v[last - 1]? with
      | none => none
      | some x =>
        if comp val x then linear_insert_loop comp val fuel (v.set last x) (last - 1)
        else some (v.set last val)

/-- Function `std::__unguarded_linear_insert`. -/
def unguarded_linear_insert (comp : Nat → Nat → Bool) (v : List Nat) (last : Nat) :
    Option (List Nat) :=
  match v[last]? with
  | none => none
  | some val => linear_insert_loop comp val (last + 1) v last

/-- Effect of `std::move_backward(first, last, result)` for `result >= last`. -/
def move_backward (v : List Nat) (first last result : Nat) : List Nat :=
  v.take (result - (last - first)) ++ (v.drop first).take (last - first) ++ v.drop result

/-- The loop of `std::__insertion_sort`, from `__i` for `count` elements. -/
def insertion_sort_loop (comp : Nat → Nat → Bool) (first : Nat) :
    Nat → List Nat → Nat → Option (List Nat)
  | 0, v, _ => some v
  | count + 1, v, i =>
    match compAt comp v i first, v[i]? with
    | some true, some val =>
      insertion_sort_loop comp first count ((move_backward v first i (i + 1)).set first val) (i + 1)
    | some false, some _ =>
      match unguarded_linear_insert comp v i with
      | none => none
      | some v1 => insertion_sort_loop comp first count v1 (i + 1)
    | _, _ => none

/-- Function `std::__insertion_sort`. -/
def insertion_sort (comp : Nat → Nat → Bool) (v : List Nat) (first last : Nat) :
    Option (List Nat) :=
  if first = last then some v
  else insertion_sort_loop comp first (last - (first + 1)) v (first + 1)

/-- Function `std::__unguarded_insertion_sort`: `count` is `__last - __first`. -/
def unguarded_insertion_sort (comp : Nat → Nat → Bool) :
    Nat → List Nat → Nat → Option (List Nat)
  | 0, v, _ => some v
  | count + 1, v, i =>
    match unguarded_linear_insert comp v i with
    | none => none
    | some v1 => unguarded_insertion_sort comp count v1 (i + 1)

/-- Function `std::__final_insertion_sort`. -/
def final_insertion_sort (comp : Nat → Nat → Bool) (v : List Nat) (first last : Nat) :
    Option (List Nat) :=
  if last - first > S_threshold then
    match insertion_sort comp v first (first + S_threshold) with
    | none => none
    | some v1 => unguarded_insertion_sort comp (last - (first + S_threshold)) v1 (first + S_threshold)
  else insertion_sort comp v first last

/-- Function `std::__sort`. -/
def sort (comp : Nat → Nat → Bool) (v : List Nat) (first last : Nat) : Option (List Nat) :=
  if first ≠ last then
    match introsort_loop comp (lg (last - first) (last - first) * 2) v first last with
    | none => none
    | some v1 => final_insertion_sort comp v1 first last
  else some v

end libstdcxx

/-- The call `std::sort(v.begin(), v.end(), comp)` with libstdc++; a vector on which the run is
undefined is returned as it is. -/
def std_sort : SortFn := fun comp v =>
  match libstdcxx.sort comp v 0 v.length with
  | some v1 => v1
  | none => v

/-! ## Specification vocabulary -/

/-- The comparator `comp` is a strict weak ordering of the elements of `l`: irreflexive,
transitive, and with a transitive equivalence ("neither is less than the other"). -/
def StrictWeakOn (comp : Nat → Nat → Bool) (l : List Nat) : Prop :=
  (∀ a ∈ l, comp a a = false) ∧
  (∀ a ∈ l, ∀ b ∈ l, ∀ c ∈ l, comp a b = true → comp b c = true → comp a c = true) ∧
  (∀ a ∈ l, ∀ b ∈ l, ∀ c ∈ l, comp a b = false → comp b a = false →
    comp b c = false → comp c b = false → comp a c = false ∧ comp c a = false)

/-- What the C++ standard promises of `std::sort`: for a comparator that is a strict weak ordering
of the range, the result is a rearrangement of the range, sorted with respect to the comparator
(no element compares less than one placed before it).  The relative order of equivalent
elements is left open. -/
def SortContract (sort : SortFn) : Prop :=
  ∀ (comp : Nat → Nat → Bool) (l : List Nat), StrictWeakOn comp l →
    (sort comp l).Perm l ∧ (sort comp l).Pairwise (fun a b => comp b a = false)

/-- The operator `lt` is a strict weak ordering of `T`. -/
structure StrictWeakOrder {T : Type} (lt : T → T → Bool) : Prop where
  irrefl : ∀ a, lt a a = false
  trans : ∀ a b c, lt a b = true → lt b c = true → lt a c = true
  incomp_trans : ∀ a b c, lt a b = false → lt b a = false → lt b c = false → lt c b = false →
    lt a c = false ∧ lt c a = false

/-- The element type is totally ordered by `<`, and `>` is its converse. -/
structure TotalOrderOps {T : Type} (ops : ElemOps T) : Prop where
  irrefl : ∀ a, ops.lt a a = false
  trans : ∀ a b c, ops.lt a b = true → ops.lt b c = true → ops.lt a c = true
  total : ∀ a b, ops.lt a b = true ∨ a = b ∨ ops.lt b a = true
  gt_eq : ∀ a b, ops.gt a b = ops.lt b a

/-- Two elements are equivalent under the comparison: neither is less than the other. -/
def Equiv {T : Type} (ops : ElemOps T) (x y : T) : Prop :=
  ops.lt x y = false ∧ ops.lt y x = false

/-- Index `i` appears before index `j` in the permutation `order`. -/
def Before (order : List Nat) (i j : Nat) : Prop :=
  i ∈ order ∧ j ∈ order ∧ order.indexOf i < order.indexOf j

instance instDecidableEquiv {T : Type} (ops : ElemOps T) (x y : T) : Decidable (Equiv ops x y) := by
  unfold Equiv
  infer_instance

instance instDecidableBefore (order : List Nat) (i j : Nat) : Decidable (Before order i j) := by
  unfold Before
  infer_instance

/-- The elements a traversal yields for the index order `order`: `data[order[0]]`,
`data[order[1]]`, ... -/
def valuesAt {T : Type} (data : List T) (order : List Nat) : List T :=
  order.filterMap (fun i => data[i]?)

/-- The indices MiddleOut emits at offset `k` from the middle, as the specification words it:
`mid - k` when that is not below zero, then `mid + k` when that is below `n`. -/
def middleOutStep (n mid k : Nat) : List Nat :=
  (if k ≤ mid then [mid - k] else []) ++ (if mid + k < n then [mid + k] else [])

/-- The MiddleOut permutation as the specification words it: `mid = floor(n/2)`, followed for
`k = 1, 2, ..., n` by the indices of offset `k`. -/
def middleOutSpec (n : Nat) : List Nat :=
  (n / 2) :: (List.range' 1 n).flatMap (middleOutStep n (n / 2))

/-- Number of indices the SideCross loop emits when `d = right - left` on entry. -/
def sideCrossLen (d : Nat) : Nat :=
  if d = 0 then 0 else if d % 2 = 0 then d - 1 else d

/-- The index the SideCross loop places at position `p`, as the specification words it: position
`2k` holds `sorted_idx[left + k]` and position `2k + 1` holds `sorted_idx[right - 1 - k]`. -/
def sideCrossAt (sorted_idx : List Nat) (left right p : Nat) : Nat :=
  if p % 2 = 0 then sorted_idx.getD (left + p / 2) 0 else sorted_idx.getD (right - 1 - p / 2) 0

/-- The rendering as the specification words it: `[`, the renderings of the elements in storage
order joined by `, `, then `]`. -/
def renderSpec {T : Type} (render : T → String) (data : List T) : String :=
  "[" ++ ", ".intercalate (data.map render) ++ "]"

/-- How a stream renders an `int`: the decimal digits of the magnitude, after a minus sign when
negative. -/
def renderInt (x : Int) : String :=
  match x with
  | Int.ofNat n => String.mk (Nat.toDigits 10 n)
  | Int.negSucc n => "-" ++ String.mk (Nat.toDigits 10 (n + 1))

/-! ## Facts about the library algorithms -/

theorem iota_resize (order : List Nat) (n : Nat) :
    std_iota (vec_resize order n) 0 = List.range n := by
  have hlen : (vec_resize order n).length = n := by
    simp only [vec_resize, List.length_append, List.length_take, List.length_replicate]
    omega
  simp [std_iota, hlen, List.range_eq_range']

theorem iota_replicate (n : Nat) : std_iota (List.replicate n 0) 0 = List.range n := by
  simp [std_iota, List.range_eq_range']

theorem idxLess_of_lt {T : Type} (ops : ElemOps T) (data : List T) {a b : Nat}
    (ha : a < data.length) (hb : b < data.length) :
    idxLess ops data a b = ops.lt data[a] data[b] := by
  simp [idxLess, List.getElem?_eq_getElem ha, List.getElem?_eq_getElem hb]

theorem idxGreater_of_lt {T : Type} (ops : ElemOps T) (data : List T) {a b : Nat}
    (ha : a < data.length) (hb : b < data.length) :
    idxGreater ops data a b = ops.gt data[a] data[b] := by
  simp [idxGreater, List.getElem?_eq_getElem ha, List.getElem?_eq_getElem hb]

/-- A strict weak ordering of the elements is one of the indices below `data.size()`. -/
theorem strictWeakOn_idxLess {T : Type} (ops : ElemOps T) (data : List T)
    (h : StrictWeakOrder ops.lt) : StrictWeakOn (idxLess ops data) (List.range data.length) := by
  refine ⟨?_, ?_, ?_⟩
  · intro a ha
    rw [List.mem_range] at ha
    rw [idxLess_of_lt ops data ha ha]; exact h.irrefl _
  · intro a ha b hb c hc
    rw [List.mem_range] at ha hb hc
    rw [idxLess_of_lt ops data ha hb, idxLess_of_lt ops data hb hc, idxLess_of_lt ops data ha hc]
    exact h.trans _ _ _
  · intro a ha b hb c hc
    rw [List.mem_range] at ha hb hc
    rw [idxLess_of_lt ops data ha hb, idxLess_of_lt ops data hb hc, idxLess_of_lt ops data ha hc,
      idxLess_of_lt ops data hb ha, idxLess_of_lt ops data hc hb, idxLess_of_lt ops data hc ha]
    exact h.incomp_trans _ _ _

/-- A total order is in particular a strict weak ordering. -/
theorem TotalOrderOps.strictWeak {T : Type} {ops : ElemOps T} (h : TotalOrderOps ops) :
    StrictWeakOrder ops.lt := by
  refine ⟨h.irrefl, h.trans, ?_⟩
  intro a b c hab hba hbc hcb
  have e1 : a = b := by
    rcases h.total a b with h1 | h1 | h1
    · rw [hab] at h1; cases h1
    · exact h1
    · rw [hba] at h1; cases h1
  have e2 : b = c := by
    rcases h.total b c with h1 | h1 | h1
    · rw [hbc] at h1; cases h1
    · exact h1
    · rw [hcb] at h1; cases h1
  subst e1; subst e2
  exact ⟨h.irrefl _, h.irrefl _⟩

/-- The converse of a strict weak ordering is one. -/
theorem StrictWeakOrder.flip {T : Type} {lt : T → T → Bool} (h : StrictWeakOrder lt) :
    StrictWeakOrder (fun a b => lt b a) := by
  refine ⟨h.irrefl, ?_, ?_⟩
  · intro a b c hab hbc
    exact h.trans _ _ _ hbc hab
  · intro a b c hab hba hbc hcb
    have := h.incomp_trans a b c hba hab hcb hbc
    exact ⟨this.2, this.1⟩

/-! ## A sort that fulfils the contract -/

theorem StrictWeakOn.mono {comp : Nat → Nat → Bool} {l l' : List Nat} (hsub : l' ⊆ l)
    (h : StrictWeakOn comp l) : StrictWeakOn comp l' :=
  ⟨fun a ha => h.1 a (hsub ha),
   fun a ha b hb c hc => h.2.1 a (hsub ha) b (hsub hb) c (hsub hc),
   fun a ha b hb c hc => h.2.2 a (hsub ha) b (hsub hb) c (hsub hc)⟩

theorem StrictWeakOn.asymm {comp : Nat → Nat → Bool} {l : List Nat} (h : StrictWeakOn comp l)
    {a b : Nat} (ha : a ∈ l) (hb : b ∈ l) (hab : comp a b = true) : comp b a = false := by
  by_contra hba
  have hba1 : comp b a = true := by simpa using hba
  have := h.2.1 a ha b hb a ha hab hba1
  rw [h.1 a ha] at this
  cases this

theorem perm_insertSorted (comp : Nat → Nat → Bool) (a : Nat) (l : List Nat) :
    (insertSorted comp a l).Perm (a :: l) := by
  induction l with
  | nil => simp [insertSorted]
  | cons b l ih =>
    unfold insertSorted
    split
    · exact List.Perm.refl _
    · exact (List.Perm.cons b ih).trans (List.Perm.swap a b l)

theorem perm_insertionSort (comp : Nat → Nat → Bool) (l : List Nat) :
    (insertionSort comp l).Perm l := by
  induction l with
  | nil => simp [insertionSort]
  | cons a l ih =>
    unfold insertionSort
    exact (perm_insertSorted comp a _).trans (List.Perm.cons a ih)

/-- Inserting into a sorted list keeps it sorted. -/
theorem pairwise_insertSorted (comp : Nat → Nat → Bool) (a : Nat) (l : List Nat)
    (hw : StrictWeakOn comp (a :: l))
    (hs : l.Pairwise (fun x y => comp y x = false)) :
    (insertSorted comp a l).Pairwise (fun x y => comp y x = false) := by
  induction l with
  | nil => simp [insertSorted]
  | cons b l ih =>
    rw [List.pairwise_cons] at hs
    have ha : a ∈ a :: b :: l := List.mem_cons_self _ _
    have hb : b ∈ a :: b :: l := List.mem_cons_of_mem _ (List.mem_cons_self _ _)
    unfold insertSorted
    split
    · rename_i hab
      rw [List.pairwise_cons]
      refine ⟨?_, List.pairwise_cons.mpr hs⟩
      intro y hy
      rcases List.mem_cons.mp hy with rfl | hyl
      · exact hw.asymm ha hb hab
      · by_contra hya
        have hya1 : comp y a = true := by simpa using hya
        have hyl2 : y ∈ a :: b :: l := List.mem_cons_of_mem _ (List.mem_cons_of_mem _ hyl)
        have := hw.2.1 y hyl2 a ha b hb hya1 hab
        rw [hs.1 y hyl] at this; cases this
    · rename_i hab
      rw [List.pairwise_cons]
      refine ⟨?_, ih (hw.mono ?_) hs.2⟩
      · intro y hy
        rcases List.mem_cons.mp ((perm_insertSorted comp a l).subset hy) with rfl | hyl
        · simpa using hab
        · exact hs.1 y hyl
      · intro x hx
        rcases List.mem_cons.mp hx with rfl | hxl
        · exact List.mem_cons_self _ _
        · exact List.mem_cons_of_mem _ (List.mem_cons_of_mem _ hxl)

/-- Insertion sort is a `std::sort`. -/
theorem insertionSort_contract : SortContract insertionSort := by
  intro comp l hw
  refine ⟨perm_insertionSort comp l, ?_⟩
  induction l with
  | nil => simp [insertionSort]
  | cons a l ih =>
    unfold insertionSort
    have hw2 : StrictWeakOn comp l := hw.mono (List.subset_cons_self a l)
    apply pairwise_insertSorted comp a _ ?_ (ih hw2)
    apply hw.mono
    intro x hx
    rcases List.mem_cons.mp hx with rfl | hxl
    · exact List.mem_cons_self _ _
    · exact List.mem_cons_of_mem _ ((perm_insertionSort comp l).subset hxl)

/-! ## MiddleOut -/

/-- The loop appends, for each remaining offset, the lower index and then the upper one. -/
theorem PolicyMiddleOut.loop_eq (n mid : Nat) :
    ∀ (d offset : Nat) (order : List Nat), 1 ≤ offset → mid + 1 - offset = d →
      PolicyMiddleOut.loop n mid offset order
        = order ++ (List.range' offset d).flatMap (middleOutStep n mid) := by
  intro d
  induction d with
  | zero =>
    intro offset order _ hd
    rw [PolicyMiddleOut.loop]
    have : ¬ offset ≤ mid := by omega
    simp [this]
  | succ d ih =>
    intro offset order ho hd
    rw [PolicyMiddleOut.loop]
    have h1 : offset ≤ mid := by omega
    have h2 : mid ≥ offset := h1
    simp only [h1, h2, if_true]
    rw [ih (offset + 1) _ (by omega) (by omega), List.range'_succ, List.flatMap_cons]
    simp only [middleOutStep, h1, if_true]
    split <;> simp

theorem middleOutStep_eq_nil (n mid k : Nat) (hn : n ≤ 2 * mid + 1) (hk : mid < k) :
    middleOutStep n mid k = [] := by
  have h1 : ¬ k ≤ mid := by omega
  have h2 : ¬ mid + k < n := by omega
  simp [middleOutStep, h1, h2]

/-- The permutation the code builds is the one the specification describes. -/
theorem PolicyMiddleOut.build_eq_spec {T : Type} (data : List T) (hn : 1 ≤ data.length) :
    PolicyMiddleOut.build [] data = middleOutSpec data.length := by
  have hn0 : ¬ data.length = 0 := by omega
  have hmid : data.length ≤ 2 * (data.length / 2) + 1 := by omega
  have hsplit : List.range' 1 data.length
      = List.range' 1 (data.length / 2)
        ++ List.range' (1 + data.length / 2) (data.length - data.length / 2) := by
    rw [List.range'_append_1]
    congr 1
    omega
  simp only [PolicyMiddleOut.build, hn0, if_false, middleOutSpec]
  rw [PolicyMiddleOut.loop_eq _ _ (data.length / 2) 1 _ (le_refl 1) (by omega), hsplit,
    List.flatMap_append]
  have hnil : (List.range' (1 + data.length / 2) (data.length - data.length / 2)).flatMap
      (middleOutStep data.length (data.length / 2)) = [] := by
    rw [List.flatMap_eq_nil_iff]
    intro k hk
    rw [List.mem_range'_1] at hk
    exact middleOutStep_eq_nil _ _ _ hmid (by omega)
  rw [hnil]
  simp

/-! ## Traversals -/

theorem valuesAt_cons_of_lt {T : Type} (data : List T) (i : Nat) (order : List Nat)
    (hi : i < data.length) : valuesAt data (i :: order) = data[i] :: valuesAt data order := by
  simp [valuesAt, List.filterMap_cons, List.getElem?_eq_getElem hi]

theorem valuesAt_length {T : Type} (data : List T) (order : List Nat)
    (hin : ∀ i ∈ order, i < data.length) : (valuesAt data order).length = order.length := by
  induction order with
  | nil => simp [valuesAt]
  | cons i order ih =>
    rw [valuesAt_cons_of_lt data i order (hin i (List.mem_cons_self _ _))]
    simp [ih (fun j hj => hin j (List.mem_cons_of_mem _ hj))]

theorem valuesAt_range_take {T : Type} (data : List T) :
    ∀ n, n ≤ data.length → valuesAt data (List.range n) = data.take n := by
  intro n
  induction n with
  | zero => intro _; simp [valuesAt]
  | succ n ih =>
    intro hn
    have hlt : n < data.length := by omega
    have h := ih (by omega)
    simp only [valuesAt] at h ⊢
    rw [List.range_succ, List.filterMap_append, h]
    rw [List.take_succ, List.getElem?_eq_getElem hlt]
    simp only [List.filterMap_cons, List.filterMap_nil, List.getElem?_eq_getElem hlt,
      Option.toList]

/-- Visiting the indices `0 .. n-1` in order yields the backing store. -/
theorem valuesAt_range {T : Type} (data : List T) :
    valuesAt data (List.range data.length) = data := by
  rw [valuesAt_range_take data data.length (le_refl _), List.take_length]

/-- Walking an iterator from position `p` to the end position yields the elements at the
remaining indices, as soon as the fuel exceeds the number of steps. -/
theorem collectLoop_run {T : Type} {P : OrderPolicy} (c : MyContainer T) (order order2 : List Nat)
    (hin : ∀ i ∈ order, i < c.data_.length) :
    ∀ (d p fuel : Nat) (out : List T), order.length - p = d → p ≤ order.length → d < fuel →
      collectLoop fuel (⟨some c, order, p⟩ : Iterator T P) ⟨some c, order2, order.length⟩ out
        = some (out ++ valuesAt c.data_ (order.drop p)) := by
  intro d
  induction d with
  | zero =>
    intro p fuel out hd hp hf
    obtain ⟨f, rfl⟩ : ∃ f, fuel = f + 1 := ⟨fuel - 1, by omega⟩
    have hpe : p = order.length := by omega
    subst hpe
    simp [collectLoop, Iterator.ne, Iterator.eq, valuesAt]
  | succ d ih =>
    intro p fuel out hd hp hf
    obtain ⟨f, rfl⟩ : ∃ f, fuel = f + 1 := ⟨fuel - 1, by omega⟩
    have hlt : p < order.length := by omega
    have hne : ¬ p = order.length := by omega
    have hidx : order[p] < c.data_.length := hin _ (List.getElem_mem _)
    have hdrop : order.drop p = order[p] :: order.drop (p + 1) :=
      List.drop_eq_getElem_cons hlt
    simp only [collectLoop, Iterator.ne, Iterator.eq, hne, decide_False, Bool.false_and,
      Bool.not_false, if_true, Iterator.deref, List.getElem?_eq_getElem hlt,
      List.getElem?_eq_getElem hidx, Iterator.next]
    rw [ih (p + 1) f _ (by omega) (by omega) (by omega), hdrop,
      valuesAt_cons_of_lt _ _ _ hidx]
    simp

/-- A traversal from `begin` to `end` terminates and yields the elements at the indices of the
permutation, whenever those indices are inside the backing store. -/
theorem traverse_eq {T : Type} (sort : SortFn) (ops : ElemOps T) (P : OrderPolicy)
    (c : MyContainer T) (fuel : Nat)
    (hin : ∀ i ∈ P.build sort ops [] c.data_, i < c.data_.length)
    (hf : (P.build sort ops [] c.data_).length < fuel) :
    c.traverse sort ops P fuel = some (valuesAt c.data_ (P.build sort ops [] c.data_)) := by
  have h := collectLoop_run (P := P) c (P.build sort ops [] c.data_)
    (P.build sort ops [] c.data_) hin _ 0 fuel [] rfl (Nat.zero_le _) (by simpa using hf)
  simpa [MyContainer.traverse, collect, MyContainer.begin_, MyContainer.end_, Iterator.new]
    using h

/-! ## The sorting policies -/

theorem ascending_build_eq {T : Type} (sort : SortFn) (ops : ElemOps T) (order : List Nat)
    (data : List T) :
    PolicyAscending.build sort ops order data
      = sort (idxLess ops data) (List.range data.length) := by
  simp [PolicyAscending.build, iota_resize]

theorem descending_build_eq {T : Type} (sort : SortFn) (ops : ElemOps T) (order : List Nat)
    (data : List T) :
    PolicyDescending.build sort ops order data
      = sort (idxGreater ops data) (List.range data.length) := by
  simp [PolicyDescending.build, iota_resize]

/-- The comparator of `PolicyDescending` is the one of `PolicyAscending` for the converse
ordering. -/
theorem strictWeakOn_idxGreater {T : Type} (ops : ElemOps T) (data : List T)
    (h : StrictWeakOrder ops.gt) : StrictWeakOn (idxGreater ops data) (List.range data.length) :=
  strictWeakOn_idxLess ⟨ops.gt, ops.lt, ops.eq⟩ data h

/-- The Ascending permutation is a rearrangement of `0 .. n-1`. -/
theorem ascending_perm_range {T : Type} (sort : SortFn) (ops : ElemOps T) (data : List T)
    (hs : SortContract sort) (hw : StrictWeakOrder ops.lt) (order : List Nat) :
    (PolicyAscending.build sort ops order data).Perm (List.range data.length) := by
  rw [ascending_build_eq]
  exact (hs _ _ (strictWeakOn_idxLess ops data hw)).1

/-- No index of the Ascending permutation holds an element less than one placed before it. -/
theorem ascending_pairwise {T : Type} (sort : SortFn) (ops : ElemOps T) (data : List T)
    (hs : SortContract sort) (hw : StrictWeakOrder ops.lt) (order : List Nat) :
    (PolicyAscending.build sort ops order data).Pairwise
      (fun a b => idxLess ops data b a = false) := by
  rw [ascending_build_eq]
  exact (hs _ _ (strictWeakOn_idxLess ops data hw)).2

theorem descending_perm_range {T : Type} (sort : SortFn) (ops : ElemOps T) (data : List T)
    (hs : SortContract sort) (hw : StrictWeakOrder ops.gt) (order : List Nat) :
    (PolicyDescending.build sort ops order data).Perm (List.range data.length) := by
  rw [descending_build_eq]
  exact (hs _ _ (strictWeakOn_idxGreater ops data hw)).1

theorem descending_pairwise {T : Type} (sort : SortFn) (ops : ElemOps T) (data : List T)
    (hs : SortContract sort) (hw : StrictWeakOrder ops.gt) (order : List Nat) :
    (PolicyDescending.build sort ops order data).Pairwise
      (fun a b => idxGreater ops data b a = false) := by
  rw [descending_build_eq]
  exact (hs _ _ (strictWeakOn_idxGreater ops data hw)).2

/-- In a list sorted for `comp`, an element that compares less than another stands before it. -/
theorem indexOf_lt_of_pairwise (comp : Nat → Nat → Bool) :
    ∀ (l : List Nat) (i j : Nat), l.Pairwise (fun a b => comp b a = false) →
      i ∈ l → j ∈ l → i ≠ j → comp i j = true → l.indexOf i < l.indexOf j := by
  intro l
  induction l with
  | nil => intro i j _ hi; cases hi
  | cons x l ih =>
    intro i j hp hi hj hne hij
    rw [List.pairwise_cons] at hp
    by_cases hxi : x = i
    · subst hxi
      rw [List.indexOf_cons_self, List.indexOf_cons_ne _ hne]
      omega
    · have hil : i ∈ l := by
        rcases List.mem_cons.mp hi with h | h
        · exact absurd h.symm hxi
        · exact h
      by_cases hxj : x = j
      · subst hxj
        rw [hp.1 i hil] at hij
        cases hij
      · have hjl : j ∈ l := by
          rcases List.mem_cons.mp hj with h | h
          · exact absurd h.symm hxj
          · exact h
        rw [List.indexOf_cons_ne _ hxi, List.indexOf_cons_ne _ hxj]
        have := ih i j hp.2 hil hjl hne hij
        omega

/-- Sortedness of the indices is sortedness of the elements they select. -/
theorem pairwise_valuesAt {T : Type} (data : List T) (R : T → T → Prop) :
    ∀ (order : List Nat), (∀ i ∈ order, i < data.length) →
      order.Pairwise (fun a b => ∀ (ha : a < data.length) (hb : b < data.length),
        R data[a] data[b]) →
      (valuesAt data order).Pairwise R := by
  intro order
  induction order with
  | nil => intro _ _; simp [valuesAt]
  | cons i order ih =>
    intro hin hp
    rw [List.pairwise_cons] at hp
    have hi : i < data.length := hin i (List.mem_cons_self _ _)
    have hin2 : ∀ j ∈ order, j < data.length := fun j hj => hin j (List.mem_cons_of_mem _ hj)
    rw [valuesAt_cons_of_lt data i order hi, List.pairwise_cons]
    refine ⟨?_, ih hin2 hp.2⟩
    intro y hy
    simp only [valuesAt, List.mem_filterMap] at hy
    obtain ⟨j, hj, hjy⟩ := hy
    have hjl : j < data.length := hin2 j hj
    rw [List.getElem?_eq_getElem hjl] at hjy
    cases hjy
    exact hp.1 j hj hi hjl

/-! ## SideCross -/

/-- The loop only appends to `order`. -/
theorem PolicySideCross.loop_append (s : List Nat) :
    ∀ (d left right : Nat) (order : List Nat), right - left = d →
      PolicySideCross.loop s left right order = order ++ PolicySideCross.loop s left right [] := by
  intro d
  induction d using Nat.strong_induction_on with
  | _ d ih =>
    intro left right order hd
    rw [PolicySideCross.loop, PolicySideCross.loop.eq_1 s left right []]
    by_cases h : left < right
    · simp only [h, if_true]
      rw [ih (right - 1 - (left + 1)) (by omega) (left + 1) (right - 1) _ rfl]
      conv_rhs => rw [ih (right - 1 - (left + 1)) (by omega) (left + 1) (right - 1) _ rfl]
      split <;> simp
    · simp [h]

/-- One turn of the loop: the left cursor's index, then the right cursor's unless the cursors have
met, then the rest. -/
theorem PolicySideCross.loop_step (s : List Nat) (left right : Nat) (h : left < right) :
    PolicySideCross.loop s left right []
      = (if left + 1 < right - 1 then [s.getD left 0, s.getD (right - 1) 0] else [s.getD left 0])
        ++ PolicySideCross.loop s (left + 1) (right - 1) [] := by
  rw [PolicySideCross.loop]
  simp only [h, if_true]
  rw [PolicySideCross.loop_append s _ (left + 1) (right - 1) _ rfl]
  split <;> simp

theorem PolicySideCross.loop_done (s : List Nat) (left right : Nat) (h : ¬ left < right) :
    PolicySideCross.loop s left right [] = [] := by
  rw [PolicySideCross.loop]
  simp [h]

/-- Closed form of the loop, position by position. -/
theorem PolicySideCross.loop_getElem? (s : List Nat) :
    ∀ (d left right : Nat), right - left = d → ∀ p : Nat,
      (PolicySideCross.loop s left right [])[p]?
        = if p < sideCrossLen d then some (sideCrossAt s left right p) else none := by
  intro d
  induction d using Nat.strong_induction_on with
  | _ d ih =>
    intro left right hd p
    by_cases h : left < right
    · rw [PolicySideCross.loop_step s left right h]
      have ih2 := ih (d - 2) (by omega) (left + 1) (right - 1) (by omega)
      by_cases h3 : left + 1 < right - 1
      · simp only [h3, if_true]
        have hlen : sideCrossLen d = sideCrossLen (d - 2) + 2 := by
          simp only [sideCrossLen]
          split_ifs <;> omega
        match p with
        | 0 => simp [hlen, sideCrossAt]
        | 1 => simp [hlen, sideCrossAt]
        | p + 2 =>
          have e : ([s.getD left 0, s.getD (right - 1) 0]
              ++ PolicySideCross.loop s (left + 1) (right - 1) [])[p + 2]?
              = (PolicySideCross.loop s (left + 1) (right - 1) [])[p]? := by
            simp
          rw [e, ih2 p, hlen]
          have hp2 : (p + 2) / 2 = p / 2 + 1 := by omega
          have hpm : (p + 2) % 2 = p % 2 := by omega
          by_cases hp : p < sideCrossLen (d - 2)
          · have hp' : p + 2 < sideCrossLen (d - 2) + 2 := by omega
            have hpd : p < d - 2 := by
              simp only [sideCrossLen] at hp
              split_ifs at hp <;> omega
            simp only [hp, hp', if_true, sideCrossAt, hp2, hpm]
            congr 1
            split
            · congr 1; omega
            · congr 1; omega
          · have hp' : ¬ p + 2 < sideCrossLen (d - 2) + 2 := by omega
            simp [hp, hp']
      · simp only [h3, if_false]
        have hd12 : d = 1 ∨ d = 2 := by omega
        have hlen : sideCrossLen d = 1 := by
          rcases hd12 with rfl | rfl <;> simp [sideCrossLen]
        rw [PolicySideCross.loop_done s _ _ (by omega), hlen]
        match p with
        | 0 => simp [sideCrossAt]
        | p + 1 => simp
    · rw [PolicySideCross.loop_done s left right h]
      have hd0 : d = 0 := by omega
      simp [hd0, sideCrossLen]

theorem PolicySideCross.loop_length (s : List Nat) (left right : Nat) :
    (PolicySideCross.loop s left right []).length = sideCrossLen (right - left) := by
  have h := PolicySideCross.loop_getElem? s _ left right rfl
  rcases Nat.lt_trichotomy (PolicySideCross.loop s left right []).length
      (sideCrossLen (right - left)) with hlt | heq | hgt
  · have := h (PolicySideCross.loop s left right []).length
    rw [List.getElem?_eq_none (le_refl _)] at this
    simp [hlt] at this
  · exact heq
  · have := h (sideCrossLen (right - left))
    rw [List.getElem?_eq_getElem hgt] at this
    simp at this

/-- The loop of `PolicySideCross::build` runs over the Ascending permutation. -/
theorem sideCross_build_eq {T : Type} (sort : SortFn) (ops : ElemOps T) (order : List Nat)
    (data : List T) :
    PolicySideCross.build sort ops order data
      = PolicySideCross.loop (PolicyAscending.build sort ops [] data) 0
          (PolicyAscending.build sort ops [] data).length [] := by
  simp [PolicySideCross.build, ascending_build_eq, iota_replicate]

theorem ascending_length_eq {T : Type} (sort : SortFn) (ops : ElemOps T) (data : List T)
    (hs : SortContract sort) (hw : StrictWeakOrder ops.lt) (order : List Nat) :
    (PolicyAscending.build sort ops order data).length = data.length := by
  rw [(ascending_perm_range sort ops data hs hw order).length_eq, List.length_range]

theorem ascending_lt_length_of_mem {T : Type} (sort : SortFn) (ops : ElemOps T)
    (data : List T) (hs : SortContract sort) (hw : StrictWeakOrder ops.lt) (order : List Nat)
    {i : Nat} (hi : i ∈ PolicyAscending.build sort ops order data) : i < data.length :=
  List.mem_range.mp ((ascending_perm_range sort ops data hs hw order).subset hi)

theorem sideCross_length_eq {T : Type} (sort : SortFn) (ops : ElemOps T) (data : List T)
    (hs : SortContract sort) (hw : StrictWeakOrder ops.lt) (order : List Nat) :
    (PolicySideCross.build sort ops order data).length = sideCrossLen data.length := by
  rw [sideCross_build_eq, PolicySideCross.loop_length,
    ascending_length_eq sort ops data hs hw, Nat.sub_zero]

theorem sideCrossLen_le (d : Nat) : sideCrossLen d ≤ d := by
  simp only [sideCrossLen]
  split_ifs <;> omega

/-- Position `p` of the SideCross permutation, in terms of the Ascending permutation `s`:
`s[p/2]` for even `p`, `s[n-1-p/2]` for odd `p`. -/
theorem PolicySideCross.getElem?_eq {T : Type} (sort : SortFn) (ops : ElemOps T) (data : List T)
    (hs : SortContract sort) (hw : StrictWeakOrder ops.lt) (order : List Nat) (p : Nat)
    (hp : p < (PolicySideCross.build sort ops order data).length) :
    (PolicySideCross.build sort ops order data)[p]?
      = (PolicyAscending.build sort ops [] data)[if p % 2 = 0 then p / 2
          else data.length - 1 - p / 2]? := by
  have hlen := sideCross_length_eq sort ops data hs hw order
  have hsl := ascending_length_eq sort ops data hs hw []
  rw [hlen] at hp
  have hle := sideCrossLen_le data.length
  rw [sideCross_build_eq, PolicySideCross.loop_getElem? _ _ 0 _ rfl p, hsl, Nat.sub_zero,
    if_pos hp]
  simp only [sideCrossAt, Nat.zero_add]
  split
  · rw [List.getD_eq_getElem?_getD, List.getElem?_eq_getElem (by omega)]
    rfl
  · rw [List.getD_eq_getElem?_getD, List.getElem?_eq_getElem (by omega)]
    rfl

theorem sideCross_lt_length_of_mem {T : Type} (sort : SortFn) (ops : ElemOps T)
    (data : List T) (hs : SortContract sort) (hw : StrictWeakOrder ops.lt) (order : List Nat)
    {i : Nat} (hi : i ∈ PolicySideCross.build sort ops order data) : i < data.length := by
  obtain ⟨p, hp, rfl⟩ := List.getElem_of_mem hi
  have h := PolicySideCross.getElem?_eq sort ops data hs hw order p hp
  rw [List.getElem?_eq_getElem hp] at h
  exact ascending_lt_length_of_mem sort ops data hs hw [] (List.getElem?_mem h.symm)

/-- The operators of `int` are a total order. -/
theorem intOps_total : TotalOrderOps intOps := by
  refine ⟨?_, ?_, ?_, ?_⟩
  · intro a; simp [intOps]
  · intro a b c; simp only [intOps, decide_eq_true_eq]; omega
  · intro a b; simp only [intOps, decide_eq_true_eq]; omega
  · intro a b; simp [intOps]

theorem mem_take_of_getElem? {l : List Nat} {q p j : Nat} (hq : q < p) (h : l[q]? = some j) :
    j ∈ l.take p := by
  apply List.getElem?_mem (n := q)
  rw [List.getElem?_take_of_lt hq]
  exact h

/-- At an even position the SideCross permutation holds a least index among those not yet
emitted. -/
theorem PolicySideCross.even_min {T : Type} (sort : SortFn) (ops : ElemOps T) (data : List T)
    (hs : SortContract sort) (hw : StrictWeakOrder ops.lt) (k e j : Nat)
    (hk : 2 * k < (PolicySideCross.build sort ops [] data).length)
    (he : (PolicySideCross.build sort ops [] data)[2 * k]? = some e)
    (hj : j < data.length)
    (hnot : j ∉ (PolicySideCross.build sort ops [] data).take (2 * k)) :
    idxLess ops data j e = false := by
  have hlen := sideCross_length_eq sort ops data hs hw []
  have hsl := ascending_length_eq sort ops data hs hw []
  have hle := sideCrossLen_le data.length
  have hperm := ascending_perm_range sort ops data hs hw []
  have hpw := ascending_pairwise sort ops data hs hw []
  have hjs : j ∈ PolicyAscending.build sort ops [] data :=
    hperm.symm.subset (List.mem_range.mpr hj)
  obtain ⟨m, hm, hmj⟩ := List.getElem_of_mem hjs
  have hkn : k < (PolicyAscending.build sort ops [] data).length := by omega
  have hek : (PolicyAscending.build sort ops [] data)[k] = e := by
    have h := PolicySideCross.getElem?_eq sort ops data hs hw [] (2 * k) hk
    rw [he] at h
    have h2 : (2 * k) % 2 = 0 := by omega
    have h3 : 2 * k / 2 = k := by omega
    simp only [h2, if_true, h3] at h
    rw [List.getElem?_eq_getElem hkn] at h
    exact (Option.some.inj h).symm
  have hmk : k ≤ m := by
    by_contra hlt
    have hlt : m < k := by omega
    have h := PolicySideCross.getElem?_eq sort ops data hs hw [] (2 * m) (by omega)
    have h2 : (2 * m) % 2 = 0 := by omega
    have h3 : 2 * m / 2 = m := by omega
    simp only [h2, if_true, h3] at h
    rw [List.getElem?_eq_getElem hm, hmj] at h
    exact hnot (mem_take_of_getElem? (by omega) h)
  rcases Nat.eq_or_lt_of_le hmk with heq | hlt
  · subst heq
    rw [← hmj, ← hek]
    exact (strictWeakOn_idxLess ops data hw).1 _ (List.mem_range.mpr (by rw [hmj]; exact hj))
  · have := List.pairwise_iff_getElem.mp hpw k m hkn hm hlt
    rw [hmj, hek] at this
    exact this

/-- At an odd position the SideCross permutation holds a greatest index among those not yet
emitted. -/
theorem PolicySideCross.odd_max {T : Type} (sort : SortFn) (ops : ElemOps T) (data : List T)
    (hs : SortContract sort) (hw : StrictWeakOrder ops.lt) (k e j : Nat)
    (hk : 2 * k + 1 < (PolicySideCross.build sort ops [] data).length)
    (he : (PolicySideCross.build sort ops [] data)[2 * k + 1]? = some e)
    (hj : j < data.length)
    (hnot : j ∉ (PolicySideCross.build sort ops [] data).take (2 * k + 1)) :
    idxLess ops data e j = false := by
  have hlen := sideCross_length_eq sort ops data hs hw []
  have hsl := ascending_length_eq sort ops data hs hw []
  have hle := sideCrossLen_le data.length
  have hperm := ascending_perm_range sort ops data hs hw []
  have hpw := ascending_pairwise sort ops data hs hw []
  have hjs : j ∈ PolicyAscending.build sort ops [] data :=
    hperm.symm.subset (List.mem_range.mpr hj)
  obtain ⟨m, hm, hmj⟩ := List.getElem_of_mem hjs
  have hkn : data.length - 1 - k < (PolicyAscending.build sort ops [] data).length := by omega
  have hek : (PolicyAscending.build sort ops [] data)[data.length - 1 - k] = e := by
    have h := PolicySideCross.getElem?_eq sort ops data hs hw [] (2 * k + 1) hk
    rw [he] at h
    have h2 : ¬ (2 * k + 1) % 2 = 0 := by omega
    have h3 : (2 * k + 1) / 2 = k := by omega
    simp only [h2, if_false, h3] at h
    rw [List.getElem?_eq_getElem hkn] at h
    exact (Option.some.inj h).symm
  have hmk : m ≤ data.length - 1 - k := by
    by_contra hgt
    have hgt : data.length - 1 - k < m := by omega
    have h := PolicySideCross.getElem?_eq sort ops data hs hw []
      (2 * (data.length - 1 - m) + 1) (by omega)
    have h2 : ¬ (2 * (data.length - 1 - m) + 1) % 2 = 0 := by omega
    have h3 : (2 * (data.length - 1 - m) + 1) / 2 = data.length - 1 - m := by omega
    have h4 : data.length - 1 - (data.length - 1 - m) = m := by omega
    simp only [h2, if_false, h3, h4] at h
    rw [List.getElem?_eq_getElem hm, hmj] at h
    exact hnot (mem_take_of_getElem? (by omega) h)
  rcases Nat.eq_or_lt_of_le hmk with heq | hlt
  · subst heq
    rw [← hmj, ← hek]
    exact (strictWeakOn_idxLess ops data hw).1 _ (List.mem_range.mpr (by rw [hmj]; exact hj))
  · have := List.pairwise_iff_getElem.mp hpw m (data.length - 1 - k) hm hkn hlt
    rw [hmj, hek] at this
    exact this

/-- A traversal along a rearrangement of `0 .. n-1` yields a rearrangement of the backing
store. -/
theorem valuesAt_perm {T : Type} (data : List T) (order : List Nat)
    (h : order.Perm (List.range data.length)) : (valuesAt data order).Perm data := by
  have h2 := List.Perm.filterMap (fun i => data[i]?) h
  have h3 := valuesAt_range data
  simp only [valuesAt] at h3 ⊢
  rw [h3] at h2
  exact h2

theorem valuesAt_reverse {T : Type} (data : List T) (order : List Nat) :
    valuesAt data order.reverse = (valuesAt data order).reverse := by
  simp [valuesAt, List.filterMap_reverse]

theorem TotalOrderOps.strictWeak_gt {T : Type} {ops : ElemOps T} (h : TotalOrderOps ops) :
    StrictWeakOrder ops.gt := by
  have e : ops.gt = fun a b => ops.lt b a := by
    funext a b
    exact h.gt_eq a b
  rw [e]
  exact h.strictWeak.flip

/-- The elements of the Ascending traversal: no element is less than one before it. -/
theorem ascending_values_pairwise {T : Type} (sort : SortFn) (ops : ElemOps T)
    (data : List T) (hs : SortContract sort) (hw : StrictWeakOrder ops.lt) :
    (valuesAt data (PolicyAscending.build sort ops [] data)).Pairwise
      (fun a b => ops.lt b a = false) := by
  apply pairwise_valuesAt data _ _
    (fun i hi => ascending_lt_length_of_mem sort ops data hs hw [] hi)
  apply (ascending_pairwise sort ops data hs hw []).imp
  intro a b hab ha hb
  rw [idxLess_of_lt ops data hb ha] at hab
  exact hab

/-- The elements of the Descending traversal: no element is greater than one before it. -/
theorem descending_values_pairwise {T : Type} (sort : SortFn) (ops : ElemOps T)
    (data : List T) (hs : SortContract sort) (hw : StrictWeakOrder ops.gt) :
    (valuesAt data (PolicyDescending.build sort ops [] data)).Pairwise
      (fun a b => ops.gt b a = false) := by
  have hin : ∀ i ∈ PolicyDescending.build sort ops [] data, i < data.length := fun i hi =>
    List.mem_range.mp ((descending_perm_range sort ops data hs hw []).subset hi)
  apply pairwise_valuesAt data _ _ hin
  apply (descending_pairwise sort ops data hs hw []).imp
  intro a b hab ha hb
  rw [idxGreater_of_lt ops data hb ha] at hab
  exact hab

/-- Under a total order a sorted rearrangement is unique. -/
theorem sorted_unique {T : Type} (ops : ElemOps T) (h : TotalOrderOps ops) (l₁ l₂ : List T)
    (hp : l₁.Perm l₂) (h₁ : l₁.Pairwise (fun a b => ops.lt b a = false))
    (h₂ : l₂.Pairwise (fun a b => ops.lt b a = false)) : l₁ = l₂ := by
  have hanti : IsAntisymm T (fun a b => ops.lt b a = false) := by
    constructor
    intro a b hab hba
    rcases h.total a b with h1 | h1 | h1
    · rw [hba] at h1; cases h1
    · exact h1
    · rw [hab] at h1; cases h1
  exact List.eq_of_perm_of_sorted hp h₁ h₂

theorem idxLess_lt_length {T : Type} (ops : ElemOps T) (data : List T) {a b : Nat}
    (h : idxLess ops data a b = true) : a < data.length ∧ b < data.length := by
  by_contra hc
  have hor : data.length ≤ a ∨ data.length ≤ b := by omega
  rcases hor with h1 | h1
  · simp [idxLess, List.getElem?_eq_none h1] at h
  · have h2 : data[b]? = none := List.getElem?_eq_none h1
    simp only [idxLess, h2] at h
    split at h <;> simp_all

/-- With pairwise distinct elements under a total order, the Descending permutation is the
Ascending permutation reversed. -/
theorem PolicyDescending.eq_reverse_ascending {T : Type} (sort : SortFn) (ops : ElemOps T)
    (data : List T) (hs : SortContract sort) (ht : TotalOrderOps ops) (hd : data.Nodup) :
    PolicyDescending.build sort ops [] data
      = (PolicyAscending.build sort ops [] data).reverse := by
  have hw := ht.strictWeak
  have hwg := ht.strictWeak_gt
  have hpa := ascending_perm_range sort ops data hs hw []
  have hpd := descending_perm_range sort ops data hs hwg []
  have hperm : (PolicyDescending.build sort ops [] data).Perm
      (PolicyAscending.build sort ops [] data).reverse :=
    hpd.trans (hpa.symm.trans (List.reverse_perm _).symm)
  have hna : (PolicyAscending.build sort ops [] data).Nodup :=
    hpa.symm.nodup_iff.mp (List.nodup_range _)
  have hnd : (PolicyDescending.build sort ops [] data).Nodup :=
    hpd.symm.nodup_iff.mp (List.nodup_range _)
  -- distinct indices hold distinct, hence strictly ordered, elements
  have hstrict : ∀ a b : Nat, ∀ (ha : a < data.length) (hb : b < data.length), a ≠ b →
      ops.lt data[a] data[b] = false → ops.lt data[b] data[a] = true := by
    intro a b ha hb hne hab
    rcases ht.total data[a] data[b] with h1 | h1 | h1
    · rw [hab] at h1; cases h1
    · exact absurd (hd.getElem_inj_iff.mp h1) hne
    · exact h1
  have hanti : IsAntisymm Nat (fun a b => idxLess ops data b a = true) := by
    constructor
    intro a b hab hba
    obtain ⟨hb, ha⟩ := idxLess_lt_length ops data hab
    rw [idxLess_of_lt ops data hb ha] at hab
    rw [idxLess_of_lt ops data ha hb] at hba
    have := ht.trans _ _ _ hab hba
    rw [ht.irrefl] at this
    cases this
  have hsd : (PolicyDescending.build sort ops [] data).Pairwise
      (fun a b => idxLess ops data b a = true) := by
    apply ((descending_pairwise sort ops data hs hwg []).and hnd).imp_of_mem
    intro a b ha hb hab
    have ha2 : a < data.length := List.mem_range.mp (hpd.subset ha)
    have hb2 : b < data.length := List.mem_range.mp (hpd.subset hb)
    rw [idxGreater_of_lt ops data hb2 ha2, ht.gt_eq] at hab
    rw [idxLess_of_lt ops data hb2 ha2]
    exact hstrict a b ha2 hb2 hab.2 hab.1
  have hsa : (PolicyAscending.build sort ops [] data).reverse.Pairwise
      (fun a b => idxLess ops data b a = true) := by
    rw [List.pairwise_reverse]
    apply ((ascending_pairwise sort ops data hs hw []).and hna).imp_of_mem
    intro a b ha hb hab
    have ha2 : a < data.length := List.mem_range.mp (hpa.subset ha)
    have hb2 : b < data.length := List.mem_range.mp (hpa.subset hb)
    rw [idxLess_of_lt ops data hb2 ha2] at hab
    rw [idxLess_of_lt ops data ha2 hb2]
    exact hstrict b a hb2 ha2 (Ne.symm hab.2) hab.1
  exact List.eq_of_perm_of_sorted hperm hsd hsa

/-- An index whose element compares less stands earlier in any list sorted for the
comparator. -/
theorem before_of_pairwise (comp : Nat → Nat → Bool) (l : List Nat) (i j : Nat)
    (hp : l.Pairwise (fun a b => comp b a = false)) (hi : i ∈ l) (hj : j ∈ l)
    (hirr : comp i i = false) (hij : comp i j = true) : Before l i j := by
  have hne : i ≠ j := by
    intro e
    subst e
    rw [hirr] at hij
    cases hij
  exact ⟨hi, hj, indexOf_lt_of_pairwise comp l i j hp hi hj hne hij⟩

/-! ## Removal -/

theorem filter_not_length_add_countP {T : Type} (p : T → Bool) (l : List T) :
    (l.filter (fun x => !(p x))).length + l.countP p = l.length := by
  induction l with
  | nil => rfl
  | cons a l ih =>
    by_cases h : p a = true
    · simp only [List.filter_cons, h, Bool.not_true, List.countP_cons, if_true, List.length_cons]
      simp only [Bool.false_eq_true, if_false]
      omega
    · have h' : p a = false := by simpa using h
      simp only [List.filter_cons, h', Bool.not_false, List.countP_cons, if_true,
        List.length_cons]
      simp only [Bool.false_eq_true, if_false]
      omega

theorem filter_not_eq_self_of_countP_zero {T : Type} (p : T → Bool) (l : List T)
    (h : l.countP p = 0) : l.filter (fun x => !(p x)) = l := by
  rw [List.filter_eq_self]
  intro a ha
  rw [List.countP_eq_zero] at h
  have := h a ha
  simpa using this

/-- When exactly one element matches, dropping all matches is dropping the first. -/
theorem filter_not_eq_eraseP_of_countP_one {T : Type} (p : T → Bool) (l : List T)
    (h : l.countP p = 1) : l.filter (fun x => !(p x)) = l.eraseP p := by
  induction l with
  | nil => rfl
  | cons a l ih =>
    by_cases hpa : p a = true
    · have h0 : l.countP p = 0 := by
        rw [List.countP_cons] at h
        simp only [hpa, if_true] at h
        omega
      rw [List.eraseP_cons_of_pos hpa, List.filter_cons]
      simp only [hpa, Bool.not_true, Bool.false_eq_true, if_false]
      exact filter_not_eq_self_of_countP_zero p l h0
    · have hpa' : p a = false := by simpa using hpa
      have h1 : l.countP p = 1 := by
        rw [List.countP_cons] at h
        simp only [hpa', Bool.false_eq_true, if_false] at h
        omega
      rw [List.eraseP_cons_of_neg hpa, List.filter_cons]
      simp only [hpa', Bool.not_false, if_true]
      rw [ih h1]

theorem iter_equals_val_object {T : Type} (ops : ElemOps T) (data : List T) (v : T) (it : Nat)
    (x : T) (h : data[it]? = some x) :
    iter_equals_val ops data (ConstRef.object v) it = ops.eq x v := by
  simp [iter_equals_val, ConstRef.read, h]

/-- What `std::__find_if` returns: the first position from `first` on at which the predicate
holds, or `last`. -/
theorem find_if_spec {T : Type} (ops : ElemOps T) (data : List T) (value : ConstRef T) :
    ∀ (count first : Nat),
      first ≤ find_if ops data value count first ∧
      find_if ops data value count first ≤ first + count ∧
      (∀ j, first ≤ j → j < find_if ops data value count first →
        iter_equals_val ops data value j = false) ∧
      (find_if ops data value count first < first + count →
        iter_equals_val ops data value (find_if ops data value count first) = true) := by
  intro count
  induction count with
  | zero =>
    intro first
    simp only [find_if]
    refine ⟨le_refl _, le_refl _, ?_, ?_⟩
    · intro j h1 h2; omega
    · intro h; omega
  | succ count ih =>
    intro first
    simp only [find_if]
    by_cases hp : iter_equals_val ops data value first = true
    · rw [if_pos hp]
      refine ⟨le_refl _, by omega, ?_, fun _ => hp⟩
      intro j h1 h2; omega
    · rw [if_neg hp]
      obtain ⟨h1, h2, h3, h4⟩ := ih (first + 1)
      refine ⟨by omega, by omega, ?_, ?_⟩
      · intro j hj1 hj2
        by_cases hj : j = first
        · subst hj; simpa using hp
        · exact h3 j (by omega) hj2
      · intro h
        exact h4 (by omega)

/-- The loop of `std::__remove_if` keeps the length of the vector and advances `result` by at
most one per element. -/
theorem remove_if_loop_bounds {T : Type} (ops : ElemOps T) (value : ConstRef T) :
    ∀ (count : Nat) (data : List T) (result first : Nat),
      (remove_if_loop ops value count data result first).1.length = data.length ∧
      result ≤ (remove_if_loop ops value count data result first).2 ∧
      (remove_if_loop ops value count data result first).2 ≤ result + count := by
  intro count
  induction count with
  | zero => intro data result first; simp [remove_if_loop]
  | succ count ih =>
    intro data result first
    simp only [remove_if_loop]
    split
    · have := ih data result (first + 1)
      omega
    · split
      · rename_i x _
        have := ih (data.set result x) (result + 1) (first + 1)
        rw [List.length_set] at this
        omega
      · have := ih data result (first + 1)
        omega

theorem std_remove_fst_length {T : Type} (ops : ElemOps T) (data : List T)
    (value : ConstRef T) : (std_remove ops data value).1.length = data.length := by
  simp only [std_remove]
  split
  · rfl
  · exact (remove_if_loop_bounds ops value _ data _ _).1

/-- No position matches: `std::remove` writes nothing and returns `end()`. -/
theorem std_remove_of_no_position {T : Type} (ops : ElemOps T) (data : List T)
    (value : ConstRef T) (h : ∀ i, i < data.length → iter_equals_val ops data value i = false) :
    std_remove ops data value = (data, data.length) := by
  obtain ⟨_, h2, _, h4⟩ := find_if_spec ops data value data.length 0
  have hfind : find_if ops data value data.length 0 = data.length := by
    by_contra hne
    have hlt : find_if ops data value data.length 0 < 0 + data.length := by omega
    have := h4 hlt
    rw [h _ (by omega)] at this
    cases this
  simp only [std_remove, hfind, if_true]

/-- Some position matches: `std::remove` returns a position before `end()`. -/
theorem std_remove_snd_lt {T : Type} (ops : ElemOps T) (data : List T) (value : ConstRef T)
    (i : Nat) (hi : i < data.length) (h : iter_equals_val ops data value i = true) :
    (std_remove ops data value).2 < data.length := by
  obtain ⟨_, h2, h3, _⟩ := find_if_spec ops data value data.length 0
  have hfind : find_if ops data value data.length 0 < data.length := by
    by_contra hge
    have := h3 i (Nat.zero_le _) (by omega)
    rw [h] at this
    cases this
  have hne : ¬ find_if ops data value data.length 0 = data.length := by omega
  simp only [std_remove, hne, if_false]
  have := (remove_if_loop_bounds ops value
    (data.length - (find_if ops data value data.length 0 + 1)) data
    (find_if ops data value data.length 0) (find_if ops data value data.length 0 + 1)).2.2
  omega

theorem iter_equals_val_of_read {T : Type} (ops : ElemOps T) (data : List T)
    (value : ConstRef T) (v : T) (hv : value.read data = some v) (i : Nat)
    (hi : i < data.length) : iter_equals_val ops data value i = ops.eq data[i] v := by
  simp [iter_equals_val, hv, List.getElem?_eq_getElem hi]

/-- For an argument outside the vector, `std::__find_if` stops at the first element equal to
it. -/
theorem find_if_object {T : Type} (ops : ElemOps T) (v : T) :
    ∀ (suf pre : List T),
      find_if ops (pre ++ suf) (ConstRef.object v) suf.length pre.length
        = pre.length + suf.findIdx (fun x => ops.eq x v) := by
  intro suf
  induction suf with
  | nil => intro pre; simp [find_if]
  | cons x suf ih =>
    intro pre
    have hx : (pre ++ x :: suf)[pre.length]? = some x := by
      rw [List.getElem?_append_right (le_refl _)]
      simp
    simp only [find_if, List.length_cons, iter_equals_val_object ops _ v _ x hx,
      List.findIdx_cons]
    by_cases hp : ops.eq x v = true
    · simp [hp]
    · have hp' : ops.eq x v = false := by simpa using hp
      simp only [hp', Bool.false_eq_true, if_false, cond_false]
      have h := ih (pre ++ [x])
      simp only [List.append_assoc, List.singleton_append, List.length_append,
        List.length_singleton] at h
      rw [h]
      omega

/-- For an argument outside the vector, the loop of `std::__remove_if` moves the elements not
equal to it down to `result`, in order. -/
theorem remove_if_loop_object {T : Type} (ops : ElemOps T) (v : T) :
    ∀ (suf pre mid : List T), mid ≠ [] →
      (remove_if_loop ops (ConstRef.object v) suf.length (pre ++ mid ++ suf) pre.length
          (pre.length + mid.length)).2
        = pre.length + (suf.filter (fun x => !(ops.eq x v))).length ∧
      (remove_if_loop ops (ConstRef.object v) suf.length (pre ++ mid ++ suf) pre.length
          (pre.length + mid.length)).1.take
          (pre.length + (suf.filter (fun x => !(ops.eq x v))).length)
        = pre ++ suf.filter (fun x => !(ops.eq x v)) := by
  intro suf
  induction suf with
  | nil =>
    intro pre mid _
    simp [remove_if_loop]
  | cons x suf ih =>
    intro pre mid hmid
    have hx : (pre ++ mid ++ x :: suf)[pre.length + mid.length]? = some x := by
      rw [← List.length_append, List.getElem?_append_right (le_refl _)]
      simp
    simp only [remove_if_loop, List.length_cons,
      iter_equals_val_object ops _ v _ x hx, hx, List.filter_cons]
    by_cases hp : ops.eq x v = true
    · simp only [hp, if_true, Bool.not_true, Bool.false_eq_true, if_false]
      have h := ih pre (mid ++ [x]) (by simp)
      simp only [List.append_assoc, List.singleton_append, List.length_append,
        List.length_singleton] at h
      simp only [List.append_assoc, ← Nat.add_assoc]
      exact h
    · have hp' : ops.eq x v = false := by simpa using hp
      simp only [hp', Bool.false_eq_true, if_false, Bool.not_false, if_true]
      obtain ⟨m, mid', rfl⟩ := List.exists_cons_of_ne_nil hmid
      have hset : (pre ++ (m :: mid') ++ x :: suf).set pre.length x
          = (pre ++ [x]) ++ (mid' ++ [x]) ++ suf := by
        simp [List.set_append]
      rw [hset]
      have h := ih (pre ++ [x]) (mid' ++ [x]) (by simp)
      simp only [List.length_append, List.length_singleton, List.length_cons, List.length_nil,
        Nat.zero_add] at h ⊢
      have e1 : pre.length + (mid'.length + 1) + 1 = pre.length + 1 + (mid'.length + 1) := by
        omega
      have e2 : pre.length + ((suf.filter (fun x => !(ops.eq x v))).length + 1)
          = pre.length + 1 + (suf.filter (fun x => !(ops.eq x v))).length := by omega
      rw [e1, e2]
      refine ⟨h.1, ?_⟩
      rw [h.2]
      simp

/-- For an argument outside the vector, `std::remove` leaves the elements not equal to it, in
order, in front of the returned position. -/
theorem std_remove_object {T : Type} (ops : ElemOps T) (data : List T) (v : T) :
    (std_remove ops data (ConstRef.object v)).2
      = (data.filter (fun x => !(ops.eq x v))).length ∧
    (std_remove ops data (ConstRef.object v)).1.take
        (data.filter (fun x => !(ops.eq x v))).length
      = data.filter (fun x => !(ops.eq x v)) := by
  have hfind := find_if_object ops v data []
  simp only [List.nil_append, List.length_nil, Nat.zero_add] at hfind
  simp only [std_remove, hfind]
  by_cases hall : data.findIdx (fun x => ops.eq x v) = data.length
  · have hno : ∀ x ∈ data, (fun x => ops.eq x v) x = false := by
      intro x hx
      by_contra hne
      have : data.findIdx (fun x => ops.eq x v) < data.length :=
        List.findIdx_lt_length_of_exists ⟨x, hx, by simpa using hne⟩
      omega
    have hf : data.filter (fun x => !(ops.eq x v)) = data := by
      rw [List.filter_eq_self]
      intro a ha
      simp [hno a ha]
    simp only [hall, if_true, hf, List.take_length, and_self]
  · simp only [hall, if_false]
    have hlt : data.findIdx (fun x => ops.eq x v) < data.length := by
      have := @List.findIdx_le_length _ (fun x => ops.eq x v) data
      omega
    generalize hpos : data.findIdx (fun x => ops.eq x v) = pos at hlt hall
    have hsplit : data = data.take pos ++ [data[pos]] ++ data.drop (pos + 1) := by
      rw [List.append_assoc, List.singleton_append, ← List.drop_eq_getElem_cons hlt,
        List.take_append_drop]
    have hpy : ops.eq data[pos] v = true := by
      have := @List.findIdx_getElem _ (fun x => ops.eq x v) data (by omega)
      simp only [hpos] at this
      exact this
    have hpre : (data.take pos).filter (fun x => !(ops.eq x v)) = data.take pos := by
      rw [List.filter_eq_self]
      intro a ha
      obtain ⟨k, hk, rfl⟩ := List.getElem_of_mem ha
      have hk2 : k < pos := by
        rw [List.length_take] at hk; omega
      have := @List.not_of_lt_findIdx _ (fun x => ops.eq x v) data k (by omega)
      rw [List.getElem_take]
      simpa using this
    have hfil : data.filter (fun x => !(ops.eq x v))
        = data.take pos ++ (data.drop (pos + 1)).filter (fun x => !(ops.eq x v)) := by
      have h1 : data.filter (fun x => !(ops.eq x v))
          = (data.take pos ++ data.drop pos).filter (fun x => !(ops.eq x v)) := by
        rw [List.take_append_drop]
      rw [h1, List.filter_append, hpre, List.drop_eq_getElem_cons hlt, List.filter_cons]
      simp [hpy]
    have hl1 : (data.take pos).length = pos := by
      rw [List.length_take]; omega
    have hl2 : (data.drop (pos + 1)).length = data.length - (pos + 1) := List.length_drop _ _
    have h := remove_if_loop_object ops v (data.drop (pos + 1)) (data.take pos) [data[pos]]
      (by simp)
    rw [← hsplit, hl1, hl2] at h
    simp only [List.length_singleton] at h
    rw [hfil, List.length_append, hl1]
    exact h

/-- Removing a value that occurs, given as an object outside the container, succeeds and leaves
the elements that are not equal to it. -/
theorem MyContainer.removeElement_of_mem {T : Type} (ops : ElemOps T) (c : MyContainer T)
    (value : T) (h : ∃ x ∈ c.data_, ops.eq x value = true) :
    MyContainer.removeElement ops c (ConstRef.object value)
      = Except.ok ⟨c.this, c.data_.filter (fun x => !(ops.eq x value))⟩ := by
  have hpos : 0 < c.data_.countP (fun x => ops.eq x value) := List.countP_pos_iff.mpr h
  have hsum := filter_not_length_add_countP (fun x => ops.eq x value) c.data_
  have hlen := std_remove_fst_length ops c.data_ (ConstRef.object value)
  obtain ⟨h2, htake⟩ := std_remove_object ops c.data_ value
  have hne : ¬ (std_remove ops c.data_ (ConstRef.object value)).2
      = (std_remove ops c.data_ (ConstRef.object value)).1.length := by
    rw [hlen, h2]
    omega
  simp only [MyContainer.removeElement, hne, if_false, vec_erase_to_end]
  rw [h2, htake]

theorem valuesAt_getElem? {T : Type} (data : List T) :
    ∀ (order : List Nat) (k : Nat), (∀ i ∈ order, i < data.length) →
      (valuesAt data order)[k]? = (order[k]?).bind (fun i => data[i]?) := by
  intro order
  induction order with
  | nil => intro k _; simp [valuesAt]
  | cons i order ih =>
    intro k hin
    have hi : i < data.length := hin i (List.mem_cons_self _ _)
    rw [valuesAt_cons_of_lt data i order hi]
    cases k with
    | zero => simp [List.getElem?_eq_getElem hi]
    | succ k =>
      simp only [List.getElem?_cons_succ]
      exact ih k (fun j hj => hin j (List.mem_cons_of_mem _ hj))

theorem middleOutSpec_lt {n i : Nat} (hn : 1 ≤ n) (hi : i ∈ middleOutSpec n) : i < n := by
  simp only [middleOutSpec, List.mem_cons, List.mem_flatMap] at hi
  rcases hi with rfl | ⟨k, _, hk⟩
  · omega
  · simp only [middleOutStep, List.mem_append] at hk
    rcases hk with hk | hk
    · split at hk
      · simp only [List.mem_singleton] at hk; omega
      · cases hk
    · split at hk
      · simp only [List.mem_singleton] at hk; omega
      · cases hk

theorem middleOut_lt_length_of_mem {T : Type} (data : List T) {i : Nat}
    (hi : i ∈ PolicyMiddleOut.build [] data) : i < data.length := by
  by_cases hn : data.length = 0
  · simp [PolicyMiddleOut.build, hn] at hi
  · rw [PolicyMiddleOut.build_eq_spec data (by omega)] at hi
    exact middleOutSpec_lt (by omega) hi

/-- The first two indices of the MiddleOut permutation of two or more elements. -/
theorem PolicyMiddleOut.first_two {T : Type} (data : List T) (hn : 2 ≤ data.length) :
    ∃ rest, PolicyMiddleOut.build [] data
      = data.length / 2 :: (data.length / 2 - 1) :: rest := by
  rw [PolicyMiddleOut.build_eq_spec data (by omega)]
  obtain ⟨m, hm⟩ : ∃ m, data.length = m + 1 := ⟨data.length - 1, by omega⟩
  have h1 : 1 ≤ data.length / 2 := by omega
  simp only [middleOutSpec]
  rw [hm, List.range'_succ, List.flatMap_cons, ← hm]
  simp only [middleOutStep, h1, if_true]
  refine ⟨(if data.length / 2 + 1 < data.length then [data.length / 2 + 1] else [])
    ++ (List.range' (1 + 1) m).flatMap (middleOutStep data.length (data.length / 2)), ?_⟩
  simp only [List.singleton_append, List.cons_append, List.append_assoc, List.nil_append]

theorem middleOut_flatMap_length (n mid : Nat) (hn : n = 2 * mid ∨ n = 2 * mid + 1) :
    ∀ (d a : Nat), 1 ≤ a → a + d = mid + 1 →
      ((List.range' a d).flatMap (middleOutStep n mid)).length
        = 2 * d - (if n = 2 * mid ∧ 0 < d then 1 else 0) := by
  intro d
  induction d with
  | zero => intro a _ _; simp
  | succ d ih =>
    intro a ha had
    have h1 : a ≤ mid := by omega
    rw [List.range'_succ, List.flatMap_cons, List.length_append, ih (a + 1) (by omega) (by omega)]
    simp only [middleOutStep, h1, if_true]
    by_cases hd : d = 0
    · subst hd
      have ham : a = mid := by omega
      subst ham
      rcases hn with hn | hn
      · have h2 : ¬ a + a < n := by omega
        simp [h2, hn]
        omega
      · have h2 : a + a < n := by omega
        have h3 : ¬ n = 2 * a := by omega
        simp [h2, h3]
    · have h2 : mid + a < n := by omega
      have h4 : 0 < d := by omega
      simp only [h2, if_true, h4, and_true, List.length_append, List.length_singleton,
        Nat.zero_lt_succ]
      split <;> omega

/-- The MiddleOut permutation has one entry per element. -/
theorem middleOut_length {T : Type} (data : List T) :
    (PolicyMiddleOut.build [] data).length = data.length := by
  by_cases hn : data.length = 0
  · simp [PolicyMiddleOut.build, hn]
  · have hn0 : ¬ data.length = 0 := hn
    simp only [PolicyMiddleOut.build, hn0, if_false]
    rw [PolicyMiddleOut.loop_eq _ _ (data.length / 2) 1 _ (le_refl 1) (by omega),
      List.length_append,
      middleOut_flatMap_length data.length (data.length / 2) (by omega) (data.length / 2) 1
        (le_refl 1) (by omega)]
    simp only [List.nil_append, List.length_singleton]
    split <;> omega

/-- Every index below `n` occurs in the MiddleOut permutation as the specification words it. -/
theorem mem_middleOutSpec {n i : Nat} (hi : i < n) : i ∈ middleOutSpec n := by
  simp only [middleOutSpec, List.mem_cons, List.mem_flatMap]
  rcases Nat.lt_trichotomy i (n / 2) with hlt | heq | hgt
  · right
    refine ⟨n / 2 - i, ?_, ?_⟩
    · rw [List.mem_range'_1]; omega
    · have h1 : n / 2 - i ≤ n / 2 := by omega
      simp only [middleOutStep, h1, if_true, List.mem_append, List.mem_singleton]
      left; omega
  · left; exact heq
  · right
    refine ⟨i - n / 2, ?_, ?_⟩
    · rw [List.mem_range'_1]; omega
    · have h1 : n / 2 + (i - n / 2) < n := by omega
      simp only [middleOutStep, h1, if_true, List.mem_append, List.mem_singleton]
      right; omega

/-- The MiddleOut permutation is a rearrangement of `0 .. n-1`. -/
theorem middleOut_perm_range {T : Type} (data : List T) :
    (PolicyMiddleOut.build [] data).Perm (List.range data.length) := by
  by_cases hn : data.length = 0
  · simp [PolicyMiddleOut.build, hn]
  · have hsub : List.range data.length ⊆ PolicyMiddleOut.build [] data := by
      intro i hi
      rw [PolicyMiddleOut.build_eq_spec data (by omega)]
      exact mem_middleOutSpec (List.mem_range.mp hi)
    have hsp := (List.nodup_range data.length).subperm hsub
    have hle : (PolicyMiddleOut.build [] data).length ≤ (List.range data.length).length := by
      rw [middleOut_length, List.length_range]
    exact (hsp.perm_of_length_le hle).symm

/-- No stored element equals the value the reference denotes: `std::remove` writes nothing and
returns `end()`. -/
theorem std_remove_of_no_match {T : Type} (ops : ElemOps T) (data : List T)
    (value : ConstRef T) (v : T) (hv : value.read data = some v)
    (h : ∀ x ∈ data, ops.eq x v = false) :
    std_remove ops data value = (data, data.length) := by
  apply std_remove_of_no_position
  intro i hi
  rw [iter_equals_val_of_read ops data value v hv i hi]
  exact h _ (List.getElem_mem _)

/-- The outcome of `removeElement` is the outcome of the call with the container made
explicit. -/
theorem MyContainer.removeElement_eq_run {T : Type} (ops : ElemOps T) (c : MyContainer T)
    (value : ConstRef T) :
    MyContainer.removeElement ops c value
      = match (MyContainer.removeElementRun ops c value).2 with
        | Except.error e => Except.error e
        | Except.ok _ => Except.ok (MyContainer.removeElementRun ops c value).1 := by
  simp only [MyContainer.removeElement, MyContainer.removeElementRun]
  split <;> rfl

/-- Removing a value that does not occur throws and leaves the object as it was. -/
theorem MyContainer.removeElementRun_of_no_match {T : Type} (ops : ElemOps T) (c : MyContainer T)
    (value : ConstRef T) (v : T) (hv : value.read c.data_ = some v)
    (h : ∀ x ∈ c.data_, ops.eq x v = false) :
    MyContainer.removeElementRun ops c value
      = (c, Except.error (Exception.out_of_range "Element not found in MyContainer")) := by
  simp only [MyContainer.removeElementRun, std_remove_of_no_match ops c.data_ value v hv h,
    if_true]

theorem MyContainer.removeElement_of_no_match {T : Type} (ops : ElemOps T) (c : MyContainer T)
    (value : ConstRef T) (v : T) (hv : value.read c.data_ = some v)
    (h : ∀ x ∈ c.data_, ops.eq x v = false) :
    MyContainer.removeElement ops c value
      = Except.error (Exception.out_of_range "Element not found in MyContainer") := by
  simp only [MyContainer.removeElement, std_remove_of_no_match ops c.data_ value v hv h,
    if_true]

/-- Whatever the reference refers to, a call whose value occurs returns, with fewer elements. -/
theorem MyContainer.removeElement_ok_of_match {T : Type} (ops : ElemOps T) (c : MyContainer T)
    (value : ConstRef T) (v : T) (hv : value.read c.data_ = some v)
    (h : ∃ x ∈ c.data_, ops.eq x v = true) :
    ∃ c1 : MyContainer T,
      MyContainer.removeElement ops c value = Except.ok c1 ∧ c1.this = c.this ∧
      c1.size < c.size := by
  obtain ⟨x, hx, hxv⟩ := h
  obtain ⟨i, hi, rfl⟩ := List.getElem_of_mem hx
  have hlt := std_remove_snd_lt ops c.data_ value i hi
    (by rw [iter_equals_val_of_read ops c.data_ value v hv i hi]; exact hxv)
  have hlen := std_remove_fst_length ops c.data_ value
  have hne : ¬ (std_remove ops c.data_ value).2 = (std_remove ops c.data_ value).1.length := by
    rw [hlen]; omega
  refine ⟨⟨c.this, vec_erase_to_end (std_remove ops c.data_ value).1
    (std_remove ops c.data_ value).2⟩, ?_, rfl, ?_⟩
  · simp only [MyContainer.removeElement, hne, if_false]
  · simp only [MyContainer.size, vec_erase_to_end, List.length_take, hlen]
    omega

/-- The call throws exactly when no stored element equals the value the reference denotes. -/
theorem MyContainer.removeElement_error_iff {T : Type} (ops : ElemOps T) (c : MyContainer T)
    (value : ConstRef T) (v : T) (hv : value.read c.data_ = some v) :
    (∃ e, MyContainer.removeElement ops c value = Except.error e)
      ↔ ∀ x ∈ c.data_, ops.eq x v = false := by
  constructor
  · rintro ⟨e, he⟩ x hx
    by_contra hne
    have hx1 : ops.eq x v = true := by simpa using hne
    obtain ⟨c1, hc1, _⟩ := MyContainer.removeElement_ok_of_match ops c value v hv ⟨x, hx, hx1⟩
    rw [hc1] at he
    cases he
  · intro h
    exact ⟨_, MyContainer.removeElement_of_no_match ops c value v hv h⟩

/-! ## Insertion and Reverse -/

/-- The Insertion permutation is the identity. -/
theorem order_build_eq {T : Type} (order : List Nat) (data : List T) :
    PolicyOrder.build order data = List.range data.length := by
  simp [PolicyOrder.build, iota_resize]

/-- The Reverse permutation is the identity reversed. -/
theorem reverse_build_eq {T : Type} (order : List Nat) (data : List T) :
    PolicyReverse.build order data = (List.range data.length).reverse := by
  simp [PolicyReverse.build, std_reverse, iota_resize]

/-- The Insertion traversal terminates and yields the backing store. -/
theorem traverse_order_eq {T : Type} (sort : SortFn) (ops : ElemOps T) (c : MyContainer T)
    (fuel : Nat) (hf : c.size < fuel) :
    c.traverse sort ops OrderPolicy.PolicyOrder fuel = some c.data_ := by
  have hb : OrderPolicy.build sort ops OrderPolicy.PolicyOrder [] c.data_
      = List.range c.data_.length := order_build_eq [] c.data_
  have h := traverse_eq sort ops OrderPolicy.PolicyOrder c fuel
    (by rw [hb]; intro i hi; exact List.mem_range.mp hi)
    (by rw [hb, List.length_range]; exact hf)
  rw [h, hb, valuesAt_range]

/-- The Reverse traversal terminates and yields the backing store reversed. -/
theorem traverse_reverse_eq {T : Type} (sort : SortFn) (ops : ElemOps T) (c : MyContainer T)
    (fuel : Nat) (hf : c.size < fuel) :
    c.traverse sort ops OrderPolicy.PolicyReverse fuel = some c.data_.reverse := by
  have hb : OrderPolicy.build sort ops OrderPolicy.PolicyReverse [] c.data_
      = (List.range c.data_.length).reverse := reverse_build_eq [] c.data_
  have h := traverse_eq sort ops OrderPolicy.PolicyReverse c fuel
    (by rw [hb]; intro i hi; exact List.mem_range.mp (List.mem_reverse.mp hi))
    (by rw [hb, List.length_reverse, List.length_range]; exact hf)
  rw [h, hb, valuesAt_reverse, valuesAt_range]

theorem MyContainer.addEach_data {T : Type} (values : List T) :
    ∀ c : MyContainer T, (MyContainer.addEach c values).data_ = c.data_ ++ values ∧
      (MyContainer.addEach c values).this = c.this := by
  induction values with
  | nil => intro c; simp [MyContainer.addEach]
  | cons v values ih =>
    intro c
    have h := ih (c.addElement v)
    simp only [MyContainer.addEach, List.foldl_cons] at h ⊢
    rw [h.1, h.2]
    simp [MyContainer.addElement]

/-- Removing, front to back, the pairwise distinct values a container holds empties it. -/
theorem MyContainer.removeEach_self {T : Type} (ops : ElemOps T) (a : Nat) :
    ∀ values : List T, (∀ x ∈ values, ops.eq x x = true) →
      values.Pairwise (fun x y => ops.eq y x = false) →
      MyContainer.removeEach ops ⟨a, values⟩ values = Except.ok ⟨a, []⟩ := by
  intro values
  induction values with
  | nil => intro _ _; rfl
  | cons v values ih =>
    intro hrefl hd
    rw [List.pairwise_cons] at hd
    have hv : ops.eq v v = true := hrefl v (List.mem_cons_self _ _)
    have hrem := MyContainer.removeElement_of_mem ops ⟨a, v :: values⟩ v
      ⟨v, List.mem_cons_self _ _, hv⟩
    have hfil : (v :: values).filter (fun x => !(ops.eq x v)) = values := by
      rw [List.filter_cons]
      simp only [hv, Bool.not_true, Bool.false_eq_true, if_false]
      rw [List.filter_eq_self]
      intro y hy
      simp [hd.1 y hy]
    simp only [hfil] at hrem
    simp only [MyContainer.removeEach, hrem]
    exact ih (fun x hx => hrefl x (List.mem_cons_of_mem _ hx)) hd.2

/-! ## Edge sizes -/

theorem strictWeakOn_nil (comp : Nat → Nat → Bool) : StrictWeakOn comp [] := by
  refine ⟨?_, ?_, ?_⟩ <;> intro a ha <;> cases ha

theorem strictWeakOn_singleton (comp : Nat → Nat → Bool) (i : Nat) (h : comp i i = false) :
    StrictWeakOn comp [i] := by
  refine ⟨?_, ?_, ?_⟩
  · intro a ha
    rw [List.mem_singleton] at ha
    subst ha
    exact h
  · intro a ha b hb c hc
    rw [List.mem_singleton] at ha hb hc
    subst ha; subst hb; subst hc
    intro h1 _
    exact h1
  · intro a ha b hb c hc
    rw [List.mem_singleton] at ha hb hc
    subst ha; subst hb; subst hc
    intro _ _ _ _
    exact ⟨h, h⟩

/-- On an empty backing store every policy builds the empty permutation. -/
theorem build_nil {T : Type} (sort : SortFn) (ops : ElemOps T) (hs : SortContract sort)
    (P : OrderPolicy) : P.build sort ops [] ([] : List T) = [] := by
  have hsort : ∀ comp, sort comp [] = [] := fun comp =>
    List.perm_nil.mp (hs comp [] (strictWeakOn_nil comp)).1
  cases P
  · simp [OrderPolicy.build, order_build_eq]
  · simp [OrderPolicy.build, reverse_build_eq]
  · simp [OrderPolicy.build, ascending_build_eq, hsort]
  · simp [OrderPolicy.build, descending_build_eq, hsort]
  · simp [OrderPolicy.build, sideCross_build_eq, ascending_build_eq, hsort,
      PolicySideCross.loop_done]
  · simp [OrderPolicy.build, PolicyMiddleOut.build]

/-- On a backing store of one element every policy builds the permutation `[0]`. -/
theorem build_singleton {T : Type} (sort : SortFn) (ops : ElemOps T) (hs : SortContract sort)
    (x : T) (hlt : ops.lt x x = false) (hgt : ops.gt x x = false) (P : OrderPolicy) :
    P.build sort ops [] [x] = [0] := by
  have hasc : sort (idxLess ops [x]) [0] = [0] :=
    List.perm_singleton.mp
      (hs _ [0] (strictWeakOn_singleton _ 0 (by simp [idxLess, hlt]))).1
  have hdesc : sort (idxGreater ops [x]) [0] = [0] :=
    List.perm_singleton.mp
      (hs _ [0] (strictWeakOn_singleton _ 0 (by simp [idxGreater, hgt]))).1
  have hr : List.range 1 = [0] := rfl
  cases P
  · simp [OrderPolicy.build, order_build_eq, hr]
  · simp [OrderPolicy.build, reverse_build_eq, hr]
  · simp [OrderPolicy.build, ascending_build_eq, hr, hasc]
  · simp [OrderPolicy.build, descending_build_eq, hr, hdesc]
  · simp only [OrderPolicy.build, sideCross_build_eq, ascending_build_eq, List.length_singleton,
      hr, hasc]
    rw [PolicySideCross.loop_step [0] 0 1 (by omega), PolicySideCross.loop_done [0] 1 0 (by omega)]
    simp
  · simp [OrderPolicy.build, PolicyMiddleOut.build, PolicyMiddleOut.loop]

/-- On an empty container `begin` and `end` compare equal, for every policy. -/
theorem begin_eq_end_of_empty {T : Type} (sort : SortFn) (ops : ElemOps T)
    (hs : SortContract sort) (a : Nat) (P : OrderPolicy) :
    Iterator.eq (MyContainer.begin_ sort ops P (⟨a, []⟩ : MyContainer T))
      (MyContainer.end_ sort ops P (⟨a, []⟩ : MyContainer T)) = true := by
  simp [Iterator.eq, MyContainer.begin_, MyContainer.end_, Iterator.new, build_nil sort ops hs P]

/-! ## Rendering -/

theorem intercalate_go_eq (s : String) :
    ∀ (l : List String) (acc : String),
      String.intercalate.go acc s l = acc ++ String.intercalate.go "" s l := by
  intro l
  induction l with
  | nil => intro acc; simp [String.intercalate.go]
  | cons a l ih =>
    intro acc
    simp only [String.intercalate.go]
    rw [ih (acc ++ s ++ a), ih ("" ++ s ++ a)]
    simp [String.append_assoc]

/-- Joining two or more strings: the first, the separator, the rest joined. -/
theorem intercalate_cons_cons (s a b : String) (l : List String) :
    s.intercalate (a :: b :: l) = a ++ s ++ s.intercalate (b :: l) := by
  simp only [String.intercalate, String.intercalate.go]
  rw [intercalate_go_eq s l (a ++ s ++ b), intercalate_go_eq s l b]
  simp [String.append_assoc]

/-- From index `i` on, the loop writes the remaining elements joined by `, `. -/
theorem MyContainer.printLoop_eq {T : Type} (render : T → String) (data : List T) :
    ∀ (d i : Nat) (os : String), data.length - i = d →
      MyContainer.printLoop render data i os
        = os ++ ", ".intercalate ((data.drop i).map render) := by
  intro d
  induction d with
  | zero =>
    intro i os hd
    rw [MyContainer.printLoop]
    have h : ¬ i < data.length := by omega
    rw [dif_neg h, List.drop_eq_nil_of_le (by omega)]
    simp [String.intercalate]
  | succ d ih =>
    intro i os hd
    have h : i < data.length := by omega
    rw [MyContainer.printLoop, dif_pos h]
    simp only []
    rw [ih (i + 1) _ (by omega), List.drop_eq_getElem_cons h]
    by_cases h1 : i + 1 < data.length
    · rw [if_pos h1, List.drop_eq_getElem_cons h1]
      simp only [List.map_cons]
      rw [intercalate_cons_cons]
      simp [String.append_assoc]
    · rw [if_neg h1, List.drop_eq_nil_of_le (by omega)]
      simp [String.intercalate, String.intercalate.go]

/-! ## Every policy stays inside the backing store -/

/-- No index occurs twice in the SideCross permutation. -/
theorem sideCross_nodup {T : Type} (sort : SortFn) (ops : ElemOps T) (data : List T)
    (hs : SortContract sort) (hw : StrictWeakOrder ops.lt) :
    (PolicySideCross.build sort ops [] data).Nodup := by
  have hlen := sideCross_length_eq sort ops data hs hw []
  have hsl := ascending_length_eq sort ops data hs hw []
  have hle := sideCrossLen_le data.length
  have hna : (PolicyAscending.build sort ops [] data).Nodup :=
    (ascending_perm_range sort ops data hs hw []).symm.nodup_iff.mp (List.nodup_range _)
  rw [List.Nodup, List.pairwise_iff_getElem]
  intro p q hp hq hpq heq
  have h1 := PolicySideCross.getElem?_eq sort ops data hs hw [] p hp
  have h2 := PolicySideCross.getElem?_eq sort ops data hs hw [] q hq
  rw [List.getElem?_eq_getElem hp] at h1
  rw [List.getElem?_eq_getElem hq, ← heq, h1] at h2
  have hlenv : sideCrossLen data.length = data.length ∨
      (sideCrossLen data.length + 1 = data.length ∧ data.length % 2 = 0) := by
    simp only [sideCrossLen]
    split_ifs <;> omega
  have hfp : (if p % 2 = 0 then p / 2 else data.length - 1 - p / 2)
      < (PolicyAscending.build sort ops [] data).length := by
    split <;> omega
  have hfq : (if q % 2 = 0 then q / 2 else data.length - 1 - q / 2)
      < (PolicyAscending.build sort ops [] data).length := by
    split <;> omega
  rw [List.getElem?_eq_getElem hfp, List.getElem?_eq_getElem hfq] at h2
  have h3 := hna.getElem_inj_iff.mp (Option.some.inj h2)
  split at h3 <;> split at h3 <;> omega

/-- Each policy builds a duplicate-free list of indices below `data.size()`. -/
theorem build_inside {T : Type} (sort : SortFn) (ops : ElemOps T) (data : List T)
    (hs : SortContract sort) (hw : StrictWeakOrder ops.lt) (hwg : StrictWeakOrder ops.gt)
    (P : OrderPolicy) :
    (∀ i ∈ P.build sort ops [] data, i < data.length) ∧ (P.build sort ops [] data).Nodup := by
  have hperm : ∀ l : List Nat, l.Perm (List.range data.length) →
      (∀ i ∈ l, i < data.length) ∧ l.Nodup :=
    fun l h => ⟨fun i hi => List.mem_range.mp (h.subset hi),
      h.symm.nodup_iff.mp (List.nodup_range _)⟩
  cases P
  · exact hperm _ (by rw [OrderPolicy.build, order_build_eq])
  · exact hperm _ (by rw [OrderPolicy.build, reverse_build_eq]; exact List.reverse_perm _)
  · exact hperm _ (ascending_perm_range sort ops data hs hw [])
  · exact hperm _ (descending_perm_range sort ops data hs hwg [])
  · exact ⟨fun i hi => sideCross_lt_length_of_mem sort ops data hs hw [] hi,
      sideCross_nodup sort ops data hs hw⟩
  · exact hperm _ (middleOut_perm_range data)

theorem iterate_next {T : Type} {P : OrderPolicy} (it : Iterator T P) (k : Nat) :
    Nat.iterate Iterator.next k it = ⟨it.container_, it.order_, it.pos_ + k⟩ := by
  induction k generalizing it with
  | zero => rfl
  | succ k ih =>
    rw [Function.iterate_succ_apply, ih]
    simp only [Iterator.next, Iterator.mk.injEq, true_and]
    omega

/-! ## The claims -/

/-- C1 (fails on the code): for a container with an even, non-zero number `n` of elements,
`PolicySideCross::build` emits only `n - 1` indices, so some index below `n` is missing from the
permutation and the traversal from `begin_side_cross_order()` to `end_side_cross_order()` yields
`n - 1` elements instead of `n`.  The guard `if (left < --right)` skips the last remaining
element when the two cursors meet. -/
theorem sideCross_even_size_drops_an_element {T : Type} (sort : SortFn) (ops : ElemOps T)
    (c : MyContainer T) (hs : SortContract sort) (hw : StrictWeakOrder ops.lt)
    (heven : c.size % 2 = 0) (hpos : 0 < c.size) :
    (PolicySideCross.build sort ops [] c.data_).length = c.size - 1 ∧
    (∃ i, i < c.size ∧ i ∉ PolicySideCross.build sort ops [] c.data_) ∧
    ∃ tr : List T,
      (∀ fuel, c.size < fuel →
        c.traverse sort ops OrderPolicy.PolicySideCross fuel = some tr) ∧
      tr.length = c.size - 1 := by
  have hlen : (PolicySideCross.build sort ops [] c.data_).length = c.size - 1 := by
    rw [sideCross_length_eq sort ops c.data_ hs hw []]
    simp only [MyContainer.size] at heven hpos ⊢
    simp only [sideCrossLen]
    split_ifs <;> omega
  have hin : ∀ i ∈ PolicySideCross.build sort ops [] c.data_, i < c.data_.length :=
    fun i hi => sideCross_lt_length_of_mem sort ops c.data_ hs hw [] hi
  refine ⟨hlen, ?_, valuesAt c.data_ (PolicySideCross.build sort ops [] c.data_), ?_, ?_⟩
  · by_contra hall
    have hsub : List.range c.size ⊆ PolicySideCross.build sort ops [] c.data_ := by
      intro i hi
      by_contra hni
      exact hall ⟨i, List.mem_range.mp hi, hni⟩
    have hle := ((List.nodup_range c.size).subperm hsub).length_le
    rw [List.length_range, hlen] at hle
    omega
  · intro fuel hf
    apply traverse_eq sort ops OrderPolicy.PolicySideCross c fuel hin
    have : (PolicySideCross.build sort ops [] c.data_).length < fuel := by
      rw [hlen]; omega
    exact this
  · rw [valuesAt_length c.data_ _ hin, hlen]

/-- C1, at the container holding `1, 2`: one index is emitted, one element is traversed. -/
theorem sideCross_even_size_drops_an_element_witness :
    (PolicySideCross.build insertionSort intOps [] ([1, 2] : List Int)).length = 2 - 1 ∧
    (∃ i, i < 2 ∧ i ∉ PolicySideCross.build insertionSort intOps [] ([1, 2] : List Int)) ∧
    ∃ tr : List Int,
      (∀ fuel, 2 < fuel →
        (MyContainer.mk 0 ([1, 2] : List Int)).traverse insertionSort intOps
          OrderPolicy.PolicySideCross fuel = some tr) ∧
      tr.length = 2 - 1 :=
  sideCross_even_size_drops_an_element insertionSort intOps ⟨0, [1, 2]⟩ insertionSort_contract
    intOps_total.strictWeak (by decide) (by decide)

/-- C2 as stated fails: in the container holding `1, 2, 1`, `removeElement(1)` removes both
occurrences of `1`; the size drops from 3 to 1, not to 2, and what is left is `2`, not `2, 1`
(the contents with only the first match erased). -/
theorem removeElement_removes_later_matches_counterexample :
    MyContainer.removeElement intOps ⟨0, [1, 2, 1]⟩ (ConstRef.object 1) = Except.ok ⟨0, [2]⟩ ∧
    MyContainer.size (⟨0, [2]⟩ : MyContainer Int)
      ≠ MyContainer.size (⟨0, [1, 2, 1]⟩ : MyContainer Int) - 1 ∧
    ([2] : List Int) ≠ List.eraseP (fun x => intOps.eq x 1) [1, 2, 1] := by
  refine ⟨?_, by decide, by decide⟩
  rfl

/-- C2, amended: for every container and every value `v` that occurs in it, `removeElement(v)`
succeeds and the size decreases.  When `v` is an object outside the container (a literal, a
variable, a copy), the call leaves exactly the elements that are not equal to `v`, in their
relative order, and the size decreases by the number of elements equal to `v`; when exactly one
element equals `v`, the size decreases by exactly 1 and the result is the old contents with
that first match erased.  What is left when the argument refers to a stored element is not
stated here. -/
theorem removeElement_present_removes_all_matches {T : Type} (ops : ElemOps T) (c : MyContainer T)
    (v : T) (h : ∃ x ∈ c.data_, ops.eq x v = true) :
    (∀ r : ConstRef T, r.read c.data_ = some v →
      ∃ c' : MyContainer T,
        MyContainer.removeElement ops c r = Except.ok c' ∧ c'.size < c.size) ∧
    ∃ c' : MyContainer T,
      MyContainer.removeElement ops c (ConstRef.object v) = Except.ok c' ∧
      c'.data_ = c.data_.filter (fun x => !(ops.eq x v)) ∧
      c'.size + c.data_.countP (fun x => ops.eq x v) = c.size ∧
      (c.data_.countP (fun x => ops.eq x v) = 1 →
        c'.size + 1 = c.size ∧ c'.data_ = c.data_.eraseP (fun x => ops.eq x v)) := by
  refine ⟨?_, ⟨c.this, c.data_.filter (fun x => !(ops.eq x v))⟩,
    MyContainer.removeElement_of_mem ops c v h, rfl, ?_, ?_⟩
  · intro r hr
    obtain ⟨c1, h1, _, h3⟩ := MyContainer.removeElement_ok_of_match ops c r v hr h
    exact ⟨c1, h1, h3⟩
  · exact filter_not_length_add_countP (fun x => ops.eq x v) c.data_
  · intro h1
    refine ⟨?_, filter_not_eq_eraseP_of_countP_one (fun x => ops.eq x v) c.data_ h1⟩
    have := filter_not_length_add_countP (fun x => ops.eq x v) c.data_
    rw [h1] at this
    exact this

/-- C2, amended, at the copy of `0, 1, 2, 3, 4` from which the test-suite removes `2`. -/
theorem removeElement_present_removes_all_matches_witness :
    (∃ x ∈ ([0, 1, 2, 3, 4] : List Int), intOps.eq x 2 = true) ∧
    (∀ r : ConstRef Int, r.read ([0, 1, 2, 3, 4] : List Int) = some 2 →
      ∃ c' : MyContainer Int,
        MyContainer.removeElement intOps ⟨0, [0, 1, 2, 3, 4]⟩ r = Except.ok c' ∧
        c'.size < MyContainer.size (⟨0, [0, 1, 2, 3, 4]⟩ : MyContainer Int)) ∧
    ∃ c' : MyContainer Int,
      MyContainer.removeElement intOps ⟨0, [0, 1, 2, 3, 4]⟩ (ConstRef.object 2)
        = Except.ok c' ∧
      c'.data_ = ([0, 1, 2, 3, 4] : List Int).filter (fun x => !(intOps.eq x 2)) ∧
      c'.size + ([0, 1, 2, 3, 4] : List Int).countP (fun x => intOps.eq x 2)
        = MyContainer.size (⟨0, [0, 1, 2, 3, 4]⟩ : MyContainer Int) ∧
      (([0, 1, 2, 3, 4] : List Int).countP (fun x => intOps.eq x 2) = 1 →
        c'.size + 1 = MyContainer.size (⟨0, [0, 1, 2, 3, 4]⟩ : MyContainer Int) ∧
        c'.data_ = ([0, 1, 2, 3, 4] : List Int).eraseP (fun x => intOps.eq x 2)) :=
  ⟨⟨2, by decide, by decide⟩,
    removeElement_present_removes_all_matches intOps ⟨0, [0, 1, 2, 3, 4]⟩ 2
      ⟨2, by decide, by decide⟩⟩

/-- C3 as stated fails: for the container holding `10, 20, 30, 40` the MiddleOut permutation is
`[2, 1, 3, 0]`; it starts at index `n/2 = 2` (the upper middle), not at `n/2 - 1 = 1`, and the
traversal yields `30, 20, 40, 10`. -/
theorem middleOut_even_starts_upper_middle_counterexample :
    PolicyMiddleOut.build [] ([10, 20, 30, 40] : List Int) = [2, 1, 3, 0] ∧
    (PolicyMiddleOut.build [] ([10, 20, 30, 40] : List Int))[0]? ≠ some (4 / 2 - 1) ∧
    (PolicyMiddleOut.build [] ([10, 20, 30, 40] : List Int))[1]? ≠ some (4 / 2) ∧
    (MyContainer.mk 0 ([10, 20, 30, 40] : List Int)).traverse insertionSort intOps
      OrderPolicy.PolicyMiddleOut 5 = some [30, 20, 40, 10] := by
  have h : PolicyMiddleOut.build [] ([10, 20, 30, 40] : List Int) = [2, 1, 3, 0] := by
    simp [PolicyMiddleOut.build, PolicyMiddleOut.loop]
  refine ⟨h, ?_, ?_, ?_⟩
  · rw [h]; decide
  · rw [h]; decide
  · simp [MyContainer.traverse, MyContainer.begin_, MyContainer.end_, Iterator.new,
      OrderPolicy.build, h, collect, collectLoop, Iterator.ne, Iterator.eq, Iterator.deref,
      Iterator.next]

/-- C3, amended: for every container with an even number `n >= 2` of elements, the MiddleOut
traversal visits the upper-middle element (storage index `n/2`) first and the lower-middle
element (storage index `n/2 - 1`) second. -/
theorem middleOut_even_upper_middle_then_lower {T : Type} (sort : SortFn) (ops : ElemOps T)
    (c : MyContainer T) (heven : c.size % 2 = 0) (hn : 2 ≤ c.size) :
    (PolicyMiddleOut.build [] c.data_)[0]? = some (c.size / 2) ∧
    (PolicyMiddleOut.build [] c.data_)[1]? = some (c.size / 2 - 1) ∧
    ∃ tr : List T,
      (∀ fuel, c.size < fuel →
        c.traverse sort ops OrderPolicy.PolicyMiddleOut fuel = some tr) ∧
      tr[0]? = c.data_[c.size / 2]? ∧ tr[1]? = c.data_[c.size / 2 - 1]? := by
  have _ := heven
  simp only [MyContainer.size] at hn ⊢
  obtain ⟨rest, hb⟩ := PolicyMiddleOut.first_two c.data_ hn
  have hin : ∀ i ∈ PolicyMiddleOut.build [] c.data_, i < c.data_.length :=
    fun i hi => middleOut_lt_length_of_mem c.data_ hi
  have hlen := middleOut_length c.data_
  refine ⟨by rw [hb]; simp, by rw [hb]; simp,
    valuesAt c.data_ (PolicyMiddleOut.build [] c.data_), ?_, ?_, ?_⟩
  · intro fuel hf
    exact traverse_eq sort ops OrderPolicy.PolicyMiddleOut c fuel hin (by
      show (PolicyMiddleOut.build [] c.data_).length < fuel
      omega)
  · rw [valuesAt_getElem? c.data_ _ 0 hin, hb]; simp
  · rw [valuesAt_getElem? c.data_ _ 1 hin, hb]; simp

/-- C3, amended, at the container holding `10, 20, 30, 40` of the test-suite. -/
theorem middleOut_even_upper_middle_then_lower_witness :
    (PolicyMiddleOut.build [] ([10, 20, 30, 40] : List Int))[0]? = some (4 / 2) ∧
    (PolicyMiddleOut.build [] ([10, 20, 30, 40] : List Int))[1]? = some (4 / 2 - 1) ∧
    ∃ tr : List Int,
      (∀ fuel, 4 < fuel →
        (MyContainer.mk 0 ([10, 20, 30, 40] : List Int)).traverse insertionSort intOps
          OrderPolicy.PolicyMiddleOut fuel = some tr) ∧
      tr[0]? = ([10, 20, 30, 40] : List Int)[4 / 2]? ∧
      tr[1]? = ([10, 20, 30, 40] : List Int)[4 / 2 - 1]? :=
  middleOut_even_upper_middle_then_lower insertionSort intOps ⟨0, [10, 20, 30, 40]⟩
    (by decide) (by decide)

/-- C4 as stated fails: `PolicyAscending::build` sorts with `std::sort`, which does not keep
equivalent elements in their original order.  With libstdc++, for the container holding seventeen
times `5`, the partition step of introsort swaps equivalent elements and the Ascending
permutation is `[8, 16, 15, 14, 13, 12, 11, 10, 9, 0, 7, 6, 5, 4, 3, 2, 1]`: the indices `0 < 8`
hold equivalent elements, yet index `8` comes first.  (Up to 16 elements libstdc++ only runs an
insertion sort, which makes no such swap.) -/
theorem ascending_not_stable_counterexample :
    libstdcxx.sort (idxLess intOps (List.replicate 17 (5 : Int))) (List.range 17) 0 17
      = some [8, 16, 15, 14, 13, 12, 11, 10, 9, 0, 7, 6, 5, 4, 3, 2, 1] ∧
    PolicyAscending.build std_sort intOps [] (List.replicate 17 (5 : Int))
      = [8, 16, 15, 14, 13, 12, 11, 10, 9, 0, 7, 6, 5, 4, 3, 2, 1] ∧
    (List.replicate 17 (5 : Int))[0]? = some 5 ∧
    (List.replicate 17 (5 : Int))[8]? = some 5 ∧
    Equiv intOps (5 : Int) 5 ∧
    ¬ Before (PolicyAscending.build std_sort intOps [] (List.replicate 17 (5 : Int))) 0 8 ∧
    Before (PolicyAscending.build std_sort intOps [] (List.replicate 17 (5 : Int))) 8 0 := by
  have h : PolicyAscending.build std_sort intOps [] (List.replicate 17 (5 : Int))
      = [8, 16, 15, 14, 13, 12, 11, 10, 9, 0, 7, 6, 5, 4, 3, 2, 1] := by
    decide
  refine ⟨by decide, h, by decide, by decide, by decide, ?_, ?_⟩
  · rw [h]
    decide
  · rw [h]
    decide

/-- C4, amended: the Ascending policy orders the indices by the comparison only: for every
container and every two storage indices `i`, `j` such that the element at `i` is less than the
element at `j`, index `i` appears before index `j` in the Ascending permutation.  Indices whose
elements are equivalent come in whatever order `std::sort` leaves them. -/
theorem ascending_less_element_first {T : Type} (sort : SortFn) (ops : ElemOps T)
    (data : List T) (hs : SortContract sort) (hw : StrictWeakOrder ops.lt) (i j : Nat)
    (hi : i < data.length) (hj : j < data.length) (hlt : ops.lt data[i] data[j] = true) :
    Before (PolicyAscending.build sort ops [] data) i j := by
  have hperm := ascending_perm_range sort ops data hs hw []
  apply before_of_pairwise (idxLess ops data) _ i j (ascending_pairwise sort ops data hs hw [])
    (hperm.symm.subset (List.mem_range.mpr hi)) (hperm.symm.subset (List.mem_range.mpr hj))
  · rw [idxLess_of_lt ops data hi hi]; exact hw.irrefl _
  · rw [idxLess_of_lt ops data hi hj]; exact hlt

/-- C4, amended, on the data `7, 15, 6, 1, 2` of the test-suite: index 3 (element 1) comes
before index 0 (element 7). -/
theorem ascending_less_element_first_witness :
    Before (PolicyAscending.build insertionSort intOps [] ([7, 15, 6, 1, 2] : List Int)) 3 0 :=
  ascending_less_element_first insertionSort intOps [7, 15, 6, 1, 2] insertionSort_contract
    intOps_total.strictWeak 3 0 (by decide) (by decide) (by decide)

/-- C5 as stated fails: `PolicyDescending::build` sorts with `std::sort` too.  With libstdc++,
for the container holding seventeen times `5`, the Descending permutation is
`[8, 16, 15, 14, 13, 12, 11, 10, 9, 0, 7, 6, 5, 4, 3, 2, 1]`: the tie between the indices
`0 < 8` is not broken by ascending index, index `8` comes first. -/
theorem descending_ties_not_by_index_counterexample :
    libstdcxx.sort (idxGreater intOps (List.replicate 17 (5 : Int))) (List.range 17) 0 17
      = some [8, 16, 15, 14, 13, 12, 11, 10, 9, 0, 7, 6, 5, 4, 3, 2, 1] ∧
    PolicyDescending.build std_sort intOps [] (List.replicate 17 (5 : Int))
      = [8, 16, 15, 14, 13, 12, 11, 10, 9, 0, 7, 6, 5, 4, 3, 2, 1] ∧
    (List.replicate 17 (5 : Int))[0]? = some 5 ∧
    (List.replicate 17 (5 : Int))[8]? = some 5 ∧
    Equiv intOps (5 : Int) 5 ∧
    ¬ Before (PolicyDescending.build std_sort intOps [] (List.replicate 17 (5 : Int))) 0 8 ∧
    Before (PolicyDescending.build std_sort intOps [] (List.replicate 17 (5 : Int))) 8 0 := by
  have h : PolicyDescending.build std_sort intOps [] (List.replicate 17 (5 : Int))
      = [8, 16, 15, 14, 13, 12, 11, 10, 9, 0, 7, 6, 5, 4, 3, 2, 1] := by
    decide
  refine ⟨by decide, h, by decide, by decide, by decide, ?_, ?_⟩
  · rw [h]
    decide
  · rw [h]
    decide

/-- C5, amended: the Descending policy orders the indices by the comparison only: for every
container and every two storage indices `i`, `j` such that the element at `i` is greater than
the element at `j`, index `i` appears before index `j` in the Descending permutation.  Indices
whose elements are equivalent come in whatever order `std::sort` leaves them. -/
theorem descending_greater_element_first {T : Type} (sort : SortFn) (ops : ElemOps T)
    (data : List T) (hs : SortContract sort) (hw : StrictWeakOrder ops.gt) (i j : Nat)
    (hi : i < data.length) (hj : j < data.length) (hgt : ops.gt data[i] data[j] = true) :
    Before (PolicyDescending.build sort ops [] data) i j := by
  have hperm := descending_perm_range sort ops data hs hw []
  apply before_of_pairwise (idxGreater ops data) _ i j
    (descending_pairwise sort ops data hs hw [])
    (hperm.symm.subset (List.mem_range.mpr hi)) (hperm.symm.subset (List.mem_range.mpr hj))
  · rw [idxGreater_of_lt ops data hi hi]; exact hw.irrefl _
  · rw [idxGreater_of_lt ops data hi hj]; exact hgt

/-- C5, amended, on the data `7, 15, 6, 1, 2` of the test-suite: index 1 (element 15) comes
before index 0 (element 7). -/
theorem descending_greater_element_first_witness :
    Before (PolicyDescending.build insertionSort intOps [] ([7, 15, 6, 1, 2] : List Int)) 1 0 :=
  descending_greater_element_first insertionSort intOps [7, 15, 6, 1, 2] insertionSort_contract
    intOps_total.strictWeak_gt 1 0 (by decide) (by decide) (by decide)

/-- C6: for every container whose element type is totally ordered by `<`, the Ascending
permutation is a rearrangement of `0 .. n-1`, and the traversal from `begin_ascending_order()`
to `end_ascending_order()` terminates and yields a rearrangement of the stored elements in which
no element is greater than a later one (in particular than its successor); it is the one sorted
arrangement of the contents. -/
theorem ascending_traversal_is_sorted_contents {T : Type} (sort : SortFn) (ops : ElemOps T)
    (c : MyContainer T) (hs : SortContract sort) (ht : TotalOrderOps ops) :
    (PolicyAscending.build sort ops [] c.data_).Perm (List.range c.size) ∧
    ∃ tr : List T,
      (∀ fuel, c.size < fuel →
        c.traverse sort ops OrderPolicy.PolicyAscending fuel = some tr) ∧
      tr.Perm c.data_ ∧
      tr.Pairwise (fun a b => ops.gt a b = false) ∧
      ∀ ref : List T, ref.Perm c.data_ → ref.Pairwise (fun a b => ops.lt b a = false) →
        tr = ref := by
  have hw := ht.strictWeak
  have hperm := ascending_perm_range sort ops c.data_ hs hw []
  have hin : ∀ i ∈ PolicyAscending.build sort ops [] c.data_, i < c.data_.length :=
    fun i hi => ascending_lt_length_of_mem sort ops c.data_ hs hw [] hi
  have hpw := ascending_values_pairwise sort ops c.data_ hs hw
  have hvp := valuesAt_perm c.data_ _ hperm
  refine ⟨hperm, valuesAt c.data_ (PolicyAscending.build sort ops [] c.data_), ?_, hvp, ?_, ?_⟩
  · intro fuel hf
    apply traverse_eq sort ops OrderPolicy.PolicyAscending c fuel hin
    have := ascending_length_eq sort ops c.data_ hs hw []
    show (PolicyAscending.build sort ops [] c.data_).length < fuel
    rw [this]
    exact hf
  · apply hpw.imp
    intro a b hab
    rw [ht.gt_eq]
    exact hab
  · intro ref hp hsorted
    exact sorted_unique ops ht _ _ (hvp.trans hp.symm) hpw hsorted

/-- C6 on the data `7, 15, 6, 1, 2` of the test-suite. -/
theorem ascending_traversal_is_sorted_contents_witness :
    (PolicyAscending.build insertionSort intOps [] ([7, 15, 6, 1, 2] : List Int)).Perm
      (List.range 5) ∧
    ∃ tr : List Int,
      (∀ fuel, 5 < fuel →
        (MyContainer.mk 0 ([7, 15, 6, 1, 2] : List Int)).traverse insertionSort intOps
          OrderPolicy.PolicyAscending fuel = some tr) ∧
      tr.Perm [7, 15, 6, 1, 2] ∧
      tr.Pairwise (fun a b => intOps.gt a b = false) ∧
      ∀ ref : List Int, ref.Perm [7, 15, 6, 1, 2] →
        ref.Pairwise (fun a b => intOps.lt b a = false) → tr = ref :=
  ascending_traversal_is_sorted_contents insertionSort intOps ⟨0, [7, 15, 6, 1, 2]⟩
    insertionSort_contract intOps_total

/-- C7: for every container whose element type is totally ordered by `<`, the Descending
permutation is a rearrangement of `0 .. n-1`, and the traversal from `begin_descending_order()`
to `end_descending_order()` terminates and yields a rearrangement of the stored elements in
which no element is less than a later one (in particular than its successor). -/
theorem descending_traversal_is_non_increasing {T : Type} (sort : SortFn) (ops : ElemOps T)
    (c : MyContainer T) (hs : SortContract sort) (ht : TotalOrderOps ops) :
    (PolicyDescending.build sort ops [] c.data_).Perm (List.range c.size) ∧
    ∃ tr : List T,
      (∀ fuel, c.size < fuel →
        c.traverse sort ops OrderPolicy.PolicyDescending fuel = some tr) ∧
      tr.Perm c.data_ ∧
      tr.Pairwise (fun a b => ops.lt a b = false) := by
  have hw := ht.strictWeak_gt
  have hperm := descending_perm_range sort ops c.data_ hs hw []
  have hin : ∀ i ∈ PolicyDescending.build sort ops [] c.data_, i < c.data_.length :=
    fun i hi => List.mem_range.mp (hperm.subset hi)
  have hpw := descending_values_pairwise sort ops c.data_ hs hw
  refine ⟨hperm, valuesAt c.data_ (PolicyDescending.build sort ops [] c.data_), ?_,
    valuesAt_perm c.data_ _ hperm, ?_⟩
  · intro fuel hf
    apply traverse_eq sort ops OrderPolicy.PolicyDescending c fuel hin
    show (PolicyDescending.build sort ops [] c.data_).length < fuel
    rw [hperm.length_eq, List.length_range]
    exact hf
  · apply hpw.imp
    intro a b hab
    rw [ht.gt_eq] at hab
    exact hab

/-- C7 on the data `7, 15, 6, 1, 2` of the test-suite. -/
theorem descending_traversal_is_non_increasing_witness :
    (PolicyDescending.build insertionSort intOps [] ([7, 15, 6, 1, 2] : List Int)).Perm
      (List.range 5) ∧
    ∃ tr : List Int,
      (∀ fuel, 5 < fuel →
        (MyContainer.mk 0 ([7, 15, 6, 1, 2] : List Int)).traverse insertionSort intOps
          OrderPolicy.PolicyDescending fuel = some tr) ∧
      tr.Perm [7, 15, 6, 1, 2] ∧
      tr.Pairwise (fun a b => intOps.lt a b = false) :=
  descending_traversal_is_non_increasing insertionSort intOps ⟨0, [7, 15, 6, 1, 2]⟩
    insertionSort_contract intOps_total

/-- C8: for every container whose elements are pairwise distinct under a total order, the
Descending permutation is exactly the Ascending permutation reversed, and the Descending
traversal is the Ascending traversal reversed. -/
theorem descending_is_ascending_reversed_of_distinct {T : Type} (sort : SortFn) (ops : ElemOps T)
    (c : MyContainer T) (hs : SortContract sort) (ht : TotalOrderOps ops)
    (hd : c.data_.Nodup) :
    PolicyDescending.build sort ops [] c.data_
      = (PolicyAscending.build sort ops [] c.data_).reverse ∧
    ∃ tr : List T,
      (∀ fuel, c.size < fuel →
        c.traverse sort ops OrderPolicy.PolicyAscending fuel = some tr) ∧
      (∀ fuel, c.size < fuel →
        c.traverse sort ops OrderPolicy.PolicyDescending fuel = some tr.reverse) := by
  have hw := ht.strictWeak
  have heq := PolicyDescending.eq_reverse_ascending sort ops c.data_ hs ht hd
  have hin : ∀ i ∈ PolicyAscending.build sort ops [] c.data_, i < c.data_.length :=
    fun i hi => ascending_lt_length_of_mem sort ops c.data_ hs hw [] hi
  have hlen := ascending_length_eq sort ops c.data_ hs hw []
  refine ⟨heq, valuesAt c.data_ (PolicyAscending.build sort ops [] c.data_), ?_, ?_⟩
  · intro fuel hf
    apply traverse_eq sort ops OrderPolicy.PolicyAscending c fuel hin
    show (PolicyAscending.build sort ops [] c.data_).length < fuel
    rw [hlen]
    exact hf
  · intro fuel hf
    rw [← valuesAt_reverse, ← heq]
    apply traverse_eq sort ops OrderPolicy.PolicyDescending c fuel
    · intro i hi
      have hi2 : i ∈ PolicyDescending.build sort ops [] c.data_ := hi
      rw [heq] at hi2
      exact hin i (List.mem_reverse.mp hi2)
    · show (PolicyDescending.build sort ops [] c.data_).length < fuel
      rw [heq, List.length_reverse, hlen]
      exact hf

/-- C8 on the data `7, 15, 6, 1, 2` of the test-suite. -/
theorem descending_is_ascending_reversed_of_distinct_witness :
    ([7, 15, 6, 1, 2] : List Int).Nodup ∧
    PolicyDescending.build insertionSort intOps [] ([7, 15, 6, 1, 2] : List Int)
      = (PolicyAscending.build insertionSort intOps [] ([7, 15, 6, 1, 2] : List Int)).reverse ∧
    ∃ tr : List Int,
      (∀ fuel, 5 < fuel →
        (MyContainer.mk 0 ([7, 15, 6, 1, 2] : List Int)).traverse insertionSort intOps
          OrderPolicy.PolicyAscending fuel = some tr) ∧
      (∀ fuel, 5 < fuel →
        (MyContainer.mk 0 ([7, 15, 6, 1, 2] : List Int)).traverse insertionSort intOps
          OrderPolicy.PolicyDescending fuel = some tr.reverse) :=
  ⟨by decide,
    descending_is_ascending_reversed_of_distinct insertionSort intOps ⟨0, [7, 15, 6, 1, 2]⟩
      insertionSort_contract intOps_total (by decide)⟩

/-- C9: for every container, with `s` the Ascending permutation of its `n` elements, the SideCross
traversal starts with the smallest element when there is one, and at every position it has:
position `2k` holds `s[k]`, which is a minimum of the elements not emitted before it (no such
element is less), and position `2k + 1` holds `s[n-1-k]`, which is a maximum of the elements not
emitted before it (it is less than no such element). -/
theorem sideCross_alternates_min_max {T : Type} (sort : SortFn) (ops : ElemOps T)
    (data : List T) (hs : SortContract sort) (hw : StrictWeakOrder ops.lt) :
    (0 < data.length →
      0 < (PolicySideCross.build sort ops [] data).length ∧
      (PolicySideCross.build sort ops [] data)[0]?
        = (PolicyAscending.build sort ops [] data)[0]?) ∧
    ∀ k : Nat,
      (2 * k < (PolicySideCross.build sort ops [] data).length →
        (PolicySideCross.build sort ops [] data)[2 * k]?
          = (PolicyAscending.build sort ops [] data)[k]? ∧
        ∀ e j : Nat, (PolicySideCross.build sort ops [] data)[2 * k]? = some e →
          j < data.length → j ∉ (PolicySideCross.build sort ops [] data).take (2 * k) →
          idxLess ops data j e = false) ∧
      (2 * k + 1 < (PolicySideCross.build sort ops [] data).length →
        (PolicySideCross.build sort ops [] data)[2 * k + 1]?
          = (PolicyAscending.build sort ops [] data)[data.length - 1 - k]? ∧
        ∀ e j : Nat, (PolicySideCross.build sort ops [] data)[2 * k + 1]? = some e →
          j < data.length → j ∉ (PolicySideCross.build sort ops [] data).take (2 * k + 1) →
          idxLess ops data e j = false) := by
  have hlen := sideCross_length_eq sort ops data hs hw []
  refine ⟨?_, ?_⟩
  · intro hpos
    have h0 : 0 < (PolicySideCross.build sort ops [] data).length := by
      rw [hlen]
      simp only [sideCrossLen]
      split_ifs <;> omega
    refine ⟨h0, ?_⟩
    have h := PolicySideCross.getElem?_eq sort ops data hs hw [] 0 h0
    simpa using h
  · intro k
    refine ⟨?_, ?_⟩
    · intro hk
      refine ⟨?_, fun e j he hj hnot =>
        PolicySideCross.even_min sort ops data hs hw k e j hk he hj hnot⟩
      have h := PolicySideCross.getElem?_eq sort ops data hs hw [] (2 * k) hk
      have h2 : (2 * k) % 2 = 0 := by omega
      have h3 : 2 * k / 2 = k := by omega
      simp only [h2, if_true, h3] at h
      exact h
    · intro hk
      refine ⟨?_, fun e j he hj hnot =>
        PolicySideCross.odd_max sort ops data hs hw k e j hk he hj hnot⟩
      have h := PolicySideCross.getElem?_eq sort ops data hs hw [] (2 * k + 1) hk
      have h2 : ¬ (2 * k + 1) % 2 = 0 := by omega
      have h3 : (2 * k + 1) / 2 = k := by omega
      simp only [h2, if_false, h3] at h
      exact h

/-- C9 on the data `7, 15, 6, 1, 2` of the test-suite: the SideCross permutation is
`[3, 1, 4, 0, 2]` (elements `1, 15, 2, 7, 6`), the Ascending one `[3, 4, 2, 0, 1]`. -/
theorem sideCross_alternates_min_max_witness :
    PolicySideCross.build insertionSort intOps [] ([7, 15, 6, 1, 2] : List Int)
      = [3, 1, 4, 0, 2] ∧
    PolicyAscending.build insertionSort intOps [] ([7, 15, 6, 1, 2] : List Int)
      = [3, 4, 2, 0, 1] ∧
    ((PolicySideCross.build insertionSort intOps [] ([7, 15, 6, 1, 2] : List Int))[2 * 1]?
        = (PolicyAscending.build insertionSort intOps [] ([7, 15, 6, 1, 2] : List Int))[1]? ∧
      ∀ e j : Nat,
        (PolicySideCross.build insertionSort intOps [] ([7, 15, 6, 1, 2] : List Int))[2 * 1]?
          = some e →
        j < 5 →
        j ∉ (PolicySideCross.build insertionSort intOps [] ([7, 15, 6, 1, 2] : List Int)).take
          (2 * 1) →
        idxLess intOps [7, 15, 6, 1, 2] j e = false) ∧
    ((PolicySideCross.build insertionSort intOps [] ([7, 15, 6, 1, 2] : List Int))[2 * 1 + 1]?
        = (PolicyAscending.build insertionSort intOps [] ([7, 15, 6, 1, 2] : List Int))[5 - 1 - 1]? ∧
      ∀ e j : Nat,
        (PolicySideCross.build insertionSort intOps [] ([7, 15, 6, 1, 2] : List Int))[2 * 1 + 1]?
          = some e →
        j < 5 →
        j ∉ (PolicySideCross.build insertionSort intOps [] ([7, 15, 6, 1, 2] : List Int)).take
          (2 * 1 + 1) →
        idxLess intOps [7, 15, 6, 1, 2] e j = false) := by
  have hb : PolicySideCross.build insertionSort intOps [] ([7, 15, 6, 1, 2] : List Int)
      = [3, 1, 4, 0, 2] := by
    simp [PolicySideCross.build, PolicySideCross.loop, insertionSort, insertSorted, idxLess,
      intOps, std_iota]
  have h := (sideCross_alternates_min_max insertionSort intOps ([7, 15, 6, 1, 2] : List Int)
    insertionSort_contract intOps_total.strictWeak).2 1
  exact ⟨hb, by decide, h.1 (by rw [hb]; decide), h.2 (by rw [hb]; decide)⟩

/-- C10: for every container of `n >= 1` elements, with `mid = floor(n/2)`, the MiddleOut
permutation is `mid` followed, for offset `k = 1, 2, ...` in increasing order, by `mid - k` (when
that is not below zero) and then `mid + k` (when that is below `n`); the traversal from
`begin_middle_out_order()` to `end_middle_out_order()` yields the elements at these indices. -/
theorem middleOut_permutation_eq_spec {T : Type} (sort : SortFn) (ops : ElemOps T)
    (c : MyContainer T) (hn : 1 ≤ c.size) :
    PolicyMiddleOut.build [] c.data_ = middleOutSpec c.size ∧
    ∀ fuel, c.size < fuel →
      c.traverse sort ops OrderPolicy.PolicyMiddleOut fuel
        = some (valuesAt c.data_ (middleOutSpec c.size)) := by
  have hb : PolicyMiddleOut.build [] c.data_ = middleOutSpec c.size :=
    PolicyMiddleOut.build_eq_spec c.data_ hn
  refine ⟨hb, ?_⟩
  intro fuel hf
  rw [← hb]
  apply traverse_eq sort ops OrderPolicy.PolicyMiddleOut c fuel
  · intro i hi
    exact middleOut_lt_length_of_mem c.data_ hi
  · show (PolicyMiddleOut.build [] c.data_).length < fuel
    rw [middleOut_length]
    exact hf

/-- C10 on the data `7, 15, 6, 1, 2` of the test-suite: the permutation is `[2, 1, 3, 0, 4]`
and the traversal yields `6, 15, 1, 7, 2`. -/
theorem middleOut_permutation_eq_spec_witness :
    middleOutSpec 5 = [2, 1, 3, 0, 4] ∧
    valuesAt ([7, 15, 6, 1, 2] : List Int) (middleOutSpec 5) = [6, 15, 1, 7, 2] ∧
    PolicyMiddleOut.build [] ([7, 15, 6, 1, 2] : List Int) = middleOutSpec 5 ∧
    ∀ fuel, 5 < fuel →
      (MyContainer.mk 0 ([7, 15, 6, 1, 2] : List Int)).traverse insertionSort intOps
        OrderPolicy.PolicyMiddleOut fuel
        = some (valuesAt ([7, 15, 6, 1, 2] : List Int) (middleOutSpec 5)) :=
  ⟨by decide, by decide,
    middleOut_permutation_eq_spec insertionSort intOps ⟨0, [7, 15, 6, 1, 2]⟩ (by decide)⟩

/-- C11: for every non-empty container of `n` elements, the MiddleOut permutation starts with the
index `floor(n/2)`, and the traversal from `begin_middle_out_order()` to
`end_middle_out_order()` starts with the element stored there. -/
theorem middleOut_starts_at_floor_half {T : Type} (sort : SortFn) (ops : ElemOps T)
    (c : MyContainer T) (hn : 1 ≤ c.size) :
    (PolicyMiddleOut.build [] c.data_)[0]? = some (c.size / 2) ∧
    ∃ tr : List T,
      (∀ fuel, c.size < fuel →
        c.traverse sort ops OrderPolicy.PolicyMiddleOut fuel = some tr) ∧
      tr[0]? = c.data_[c.size / 2]? ∧ tr.head? = c.data_[c.size / 2]? := by
  simp only [MyContainer.size] at hn ⊢
  have hb := PolicyMiddleOut.build_eq_spec c.data_ hn
  have hin : ∀ i ∈ PolicyMiddleOut.build [] c.data_, i < c.data_.length :=
    fun i hi => middleOut_lt_length_of_mem c.data_ hi
  have h0 : (PolicyMiddleOut.build [] c.data_)[0]? = some (c.data_.length / 2) := by
    rw [hb]
    simp [middleOutSpec]
  have ht0 : (valuesAt c.data_ (PolicyMiddleOut.build [] c.data_))[0]?
      = c.data_[c.data_.length / 2]? := by
    rw [valuesAt_getElem? c.data_ _ 0 hin, h0]
    rfl
  refine ⟨h0, valuesAt c.data_ (PolicyMiddleOut.build [] c.data_), ?_, ht0, ?_⟩
  · intro fuel hf
    apply traverse_eq sort ops OrderPolicy.PolicyMiddleOut c fuel hin
    show (PolicyMiddleOut.build [] c.data_).length < fuel
    rw [middleOut_length]
    exact hf
  · rw [List.head?_eq_getElem?]
    exact ht0

/-- C11 on the data `10, 20, 30, 40` of the test-suite: the traversal starts with `30`. -/
theorem middleOut_starts_at_floor_half_witness :
    ([10, 20, 30, 40] : List Int)[4 / 2]? = some 30 ∧
    (PolicyMiddleOut.build [] ([10, 20, 30, 40] : List Int))[0]? = some (4 / 2) ∧
    ∃ tr : List Int,
      (∀ fuel, 4 < fuel →
        (MyContainer.mk 0 ([10, 20, 30, 40] : List Int)).traverse insertionSort intOps
          OrderPolicy.PolicyMiddleOut fuel = some tr) ∧
      tr[0]? = ([10, 20, 30, 40] : List Int)[4 / 2]? ∧
      tr.head? = ([10, 20, 30, 40] : List Int)[4 / 2]? :=
  ⟨by decide,
    middleOut_starts_at_floor_half insertionSort intOps ⟨0, [10, 20, 30, 40]⟩ (by decide)⟩

/-- C12: for every container of `n` elements, odd or even, the MiddleOut permutation has length
`n` and is a rearrangement of `0 .. n-1` (every index exactly once), and the traversal from
`begin_middle_out_order()` to `end_middle_out_order()` terminates and yields a rearrangement of
the stored elements: each stored element is visited exactly once. -/
theorem middleOut_visits_every_element_once {T : Type} (sort : SortFn) (ops : ElemOps T)
    (c : MyContainer T) :
    (PolicyMiddleOut.build [] c.data_).length = c.size ∧
    (PolicyMiddleOut.build [] c.data_).Perm (List.range c.size) ∧
    (PolicyMiddleOut.build [] c.data_).Nodup ∧
    (∀ i, i < c.size → i ∈ PolicyMiddleOut.build [] c.data_) ∧
    ∃ tr : List T,
      (∀ fuel, c.size < fuel →
        c.traverse sort ops OrderPolicy.PolicyMiddleOut fuel = some tr) ∧
      tr.length = c.size ∧ tr.Perm c.data_ := by
  have hperm := middleOut_perm_range c.data_
  have hlen := middleOut_length c.data_
  have hin : ∀ i ∈ PolicyMiddleOut.build [] c.data_, i < c.data_.length :=
    fun i hi => middleOut_lt_length_of_mem c.data_ hi
  refine ⟨hlen, hperm, hperm.symm.nodup_iff.mp (List.nodup_range _), ?_,
    valuesAt c.data_ (PolicyMiddleOut.build [] c.data_), ?_, ?_, valuesAt_perm c.data_ _ hperm⟩
  · intro i hi
    exact hperm.symm.subset (List.mem_range.mpr hi)
  · intro fuel hf
    apply traverse_eq sort ops OrderPolicy.PolicyMiddleOut c fuel hin
    show (PolicyMiddleOut.build [] c.data_).length < fuel
    rw [hlen]
    exact hf
  · rw [valuesAt_length c.data_ _ hin, hlen]
    rfl

/-- C12 on the even-sized data `10, 20, 30, 40` of the test-suite. -/
theorem middleOut_visits_every_element_once_witness :
    (PolicyMiddleOut.build [] ([10, 20, 30, 40] : List Int)).length = 4 ∧
    (PolicyMiddleOut.build [] ([10, 20, 30, 40] : List Int)).Perm (List.range 4) ∧
    (PolicyMiddleOut.build [] ([10, 20, 30, 40] : List Int)).Nodup ∧
    (∀ i, i < 4 → i ∈ PolicyMiddleOut.build [] ([10, 20, 30, 40] : List Int)) ∧
    ∃ tr : List Int,
      (∀ fuel, 4 < fuel →
        (MyContainer.mk 0 ([10, 20, 30, 40] : List Int)).traverse insertionSort intOps
          OrderPolicy.PolicyMiddleOut fuel = some tr) ∧
      tr.length = 4 ∧ tr.Perm [10, 20, 30, 40] :=
  middleOut_visits_every_element_once insertionSort intOps ⟨0, [10, 20, 30, 40]⟩

/-- C13: whatever the argument refers to (an object outside the container or a stored element),
`removeElement(v)` throws `std::out_of_range` exactly when no stored element equals `v`, and
when it throws the container is as it was: same object, same size, the same element at every
position. -/
theorem removeElement_absent_throws_and_keeps_contents {T : Type} (ops : ElemOps T)
    (c : MyContainer T) (r : ConstRef T) (v : T) (hr : r.read c.data_ = some v) :
    ((∃ e, MyContainer.removeElement ops c r = Except.error e)
      ↔ ∀ x ∈ c.data_, ops.eq x v = false) ∧
    ((∀ x ∈ c.data_, ops.eq x v = false) →
      MyContainer.removeElement ops c r
        = Except.error (Exception.out_of_range "Element not found in MyContainer") ∧
      (MyContainer.removeElementRun ops c r).2
        = Except.error (Exception.out_of_range "Element not found in MyContainer") ∧
      (MyContainer.removeElementRun ops c r).1 = c ∧
      (MyContainer.removeElementRun ops c r).1.size = c.size ∧
      ∀ i : Nat, (MyContainer.removeElementRun ops c r).1.data_[i]? = c.data_[i]?) := by
  refine ⟨MyContainer.removeElement_error_iff ops c r v hr, ?_⟩
  intro h
  have hrun := MyContainer.removeElementRun_of_no_match ops c r v hr h
  refine ⟨MyContainer.removeElement_of_no_match ops c r v hr h, ?_, ?_, ?_, ?_⟩
  · rw [hrun]
  · rw [hrun]
  · rw [hrun]
  · intro i
    rw [hrun]

/-- C13 on the data `7, 15, 6, 1, 2` of the test-suite and the absent value `3`. -/
theorem removeElement_absent_throws_and_keeps_contents_witness :
    (∀ x ∈ ([7, 15, 6, 1, 2] : List Int), intOps.eq x 3 = false) ∧
    MyContainer.removeElement intOps ⟨0, [7, 15, 6, 1, 2]⟩ (ConstRef.object 3)
      = Except.error (Exception.out_of_range "Element not found in MyContainer") ∧
    (MyContainer.removeElementRun intOps ⟨0, [7, 15, 6, 1, 2]⟩ (ConstRef.object 3)).2
      = Except.error (Exception.out_of_range "Element not found in MyContainer") ∧
    (MyContainer.removeElementRun intOps ⟨0, [7, 15, 6, 1, 2]⟩ (ConstRef.object 3)).1
      = ⟨0, [7, 15, 6, 1, 2]⟩ ∧
    (MyContainer.removeElementRun intOps ⟨0, [7, 15, 6, 1, 2]⟩ (ConstRef.object 3)).1.size
      = MyContainer.size (⟨0, [7, 15, 6, 1, 2]⟩ : MyContainer Int) ∧
    ∀ i : Nat,
      (MyContainer.removeElementRun intOps ⟨0, [7, 15, 6, 1, 2]⟩ (ConstRef.object 3)).1.data_[i]?
        = ([7, 15, 6, 1, 2] : List Int)[i]? :=
  ⟨by decide,
    (removeElement_absent_throws_and_keeps_contents intOps ⟨0, [7, 15, 6, 1, 2]⟩
      (ConstRef.object 3) 3 rfl).2 (by decide)⟩

/-- C14: the Insertion policy is the identity permutation.  For every sequence `v1 .. vk` passed
to `addElement` on an empty container, `size()` is `k`, the contents are `v1 .. vk`, and the
traversal from `begin_order()` to `end_order()` terminates and yields `v1 .. vk` in call order;
each `addElement` appends its value at the end and leaves the earlier elements where they
were. -/
theorem insertion_traversal_is_call_order {T : Type} (sort : SortFn) (ops : ElemOps T) (a : Nat)
    (values : List T) :
    (MyContainer.addEach ⟨a, []⟩ values).size = values.length ∧
    (MyContainer.addEach ⟨a, []⟩ values).data_ = values ∧
    PolicyOrder.build [] (MyContainer.addEach ⟨a, []⟩ values).data_
      = List.range values.length ∧
    (∀ fuel, values.length < fuel →
      collect fuel ((MyContainer.addEach ⟨a, []⟩ values).begin_order sort ops)
        ((MyContainer.addEach ⟨a, []⟩ values).end_order sort ops) = some values) ∧
    ∀ (c : MyContainer T) (v : T),
      (c.addElement v).data_ = c.data_ ++ [v] ∧
      (c.addElement v).size = c.size + 1 ∧
      (c.addElement v).data_[c.size]? = some v ∧
      ∀ i, i < c.size → (c.addElement v).data_[i]? = c.data_[i]? := by
  have hd : (MyContainer.addEach ⟨a, []⟩ values).data_ = values := by
    have := (MyContainer.addEach_data values ⟨a, []⟩).1
    simpa using this
  refine ⟨by rw [MyContainer.size, hd], hd, by rw [order_build_eq, hd], ?_, ?_⟩
  · intro fuel hf
    have h := traverse_order_eq sort ops (MyContainer.addEach ⟨a, []⟩ values) fuel
      (by rw [MyContainer.size, hd]; exact hf)
    rw [hd] at h
    exact h
  · intro c v
    refine ⟨rfl, by simp [MyContainer.addElement, MyContainer.size], ?_, ?_⟩
    · simp [MyContainer.addElement, MyContainer.size]
    · intro i hi
      simp only [MyContainer.size] at hi
      simp only [MyContainer.addElement]
      rw [List.getElem?_append_left hi]

/-- C14 on the calls `addElement(7)`, `(15)`, `(6)`, `(1)`, `(2)` of the test-suite. -/
theorem insertion_traversal_is_call_order_witness :
    ∀ fuel, 5 < fuel →
      collect fuel
        ((MyContainer.addEach ⟨0, []⟩ ([7, 15, 6, 1, 2] : List Int)).begin_order
          insertionSort intOps)
        ((MyContainer.addEach ⟨0, []⟩ ([7, 15, 6, 1, 2] : List Int)).end_order
          insertionSort intOps) = some [7, 15, 6, 1, 2] :=
  (insertion_traversal_is_call_order insertionSort intOps 0 [7, 15, 6, 1, 2]).2.2.2.1

/-- C15: for every container, whatever its contents, the Reverse permutation is the Insertion
permutation reversed, and the traversal from `begin_reverse_order()` to `end_reverse_order()`
is exactly the traversal from `begin_order()` to `end_order()` reversed. -/
theorem reverse_traversal_is_insertion_reversed {T : Type} (sort : SortFn) (ops : ElemOps T)
    (c : MyContainer T) :
    PolicyReverse.build [] c.data_ = (PolicyOrder.build [] c.data_).reverse ∧
    ∃ tr : List T,
      (∀ fuel, c.size < fuel →
        collect fuel (c.begin_order sort ops) (c.end_order sort ops) = some tr) ∧
      (∀ fuel, c.size < fuel →
        collect fuel (c.begin_reverse_order sort ops) (c.end_reverse_order sort ops)
          = some tr.reverse) := by
  refine ⟨by rw [reverse_build_eq, order_build_eq], c.data_, ?_, ?_⟩
  · intro fuel hf
    exact traverse_order_eq sort ops c fuel hf
  · intro fuel hf
    exact traverse_reverse_eq sort ops c fuel hf

/-- C15 on the data `7, 15, 6, 1, 2` of the test-suite: `2, 1, 6, 15, 7` is the Reverse
traversal. -/
theorem reverse_traversal_is_insertion_reversed_witness :
    ([7, 15, 6, 1, 2] : List Int).reverse = [2, 1, 6, 15, 7] ∧
    PolicyReverse.build [] ([7, 15, 6, 1, 2] : List Int)
      = (PolicyOrder.build [] ([7, 15, 6, 1, 2] : List Int)).reverse ∧
    ∃ tr : List Int,
      (∀ fuel, 5 < fuel →
        collect fuel ((MyContainer.mk 0 ([7, 15, 6, 1, 2] : List Int)).begin_order
            insertionSort intOps)
          ((MyContainer.mk 0 ([7, 15, 6, 1, 2] : List Int)).end_order insertionSort intOps)
          = some tr) ∧
      (∀ fuel, 5 < fuel →
        collect fuel ((MyContainer.mk 0 ([7, 15, 6, 1, 2] : List Int)).begin_reverse_order
            insertionSort intOps)
          ((MyContainer.mk 0 ([7, 15, 6, 1, 2] : List Int)).end_reverse_order
            insertionSort intOps)
          = some tr.reverse) :=
  ⟨by decide, reverse_traversal_is_insertion_reversed insertionSort intOps ⟨0, [7, 15, 6, 1, 2]⟩⟩

/-- C16: edge sizes.  For the empty container `size()` is 0, each of the six policies builds the
empty permutation, and `begin` equals `end` for each of the six accessor pairs.  For a container
with exactly one element (on which `<` and `>` are irreflexive, as every strict ordering is) each
of the six policies builds the permutation `[0]`, and every traversal terminates and yields that
single element. -/
theorem edge_sizes_empty_and_single {T : Type} (sort : SortFn) (ops : ElemOps T)
    (hs : SortContract sort) (a : Nat) :
    (MyContainer.size (⟨a, []⟩ : MyContainer T) = 0 ∧
      (∀ P : OrderPolicy, P.build sort ops [] ([] : List T) = []) ∧
      Iterator.eq (MyContainer.begin_order sort ops (⟨a, []⟩ : MyContainer T))
        (MyContainer.end_order sort ops ⟨a, []⟩) = true ∧
      Iterator.eq (MyContainer.begin_reverse_order sort ops (⟨a, []⟩ : MyContainer T))
        (MyContainer.end_reverse_order sort ops ⟨a, []⟩) = true ∧
      Iterator.eq (MyContainer.begin_ascending_order sort ops (⟨a, []⟩ : MyContainer T))
        (MyContainer.end_ascending_order sort ops ⟨a, []⟩) = true ∧
      Iterator.eq (MyContainer.begin_descending_order sort ops (⟨a, []⟩ : MyContainer T))
        (MyContainer.end_descending_order sort ops ⟨a, []⟩) = true ∧
      Iterator.eq (MyContainer.begin_side_cross_order sort ops (⟨a, []⟩ : MyContainer T))
        (MyContainer.end_side_cross_order sort ops ⟨a, []⟩) = true ∧
      Iterator.eq (MyContainer.begin_middle_out_order sort ops (⟨a, []⟩ : MyContainer T))
        (MyContainer.end_middle_out_order sort ops ⟨a, []⟩) = true) ∧
    ∀ x : T, ops.lt x x = false → ops.gt x x = false → ∀ P : OrderPolicy,
      P.build sort ops [] [x] = [0] ∧
      ∀ fuel, 1 < fuel → (MyContainer.mk a [x]).traverse sort ops P fuel = some [x] := by
  refine ⟨⟨rfl, fun P => build_nil sort ops hs P,
    begin_eq_end_of_empty sort ops hs a OrderPolicy.PolicyOrder,
    begin_eq_end_of_empty sort ops hs a OrderPolicy.PolicyReverse,
    begin_eq_end_of_empty sort ops hs a OrderPolicy.PolicyAscending,
    begin_eq_end_of_empty sort ops hs a OrderPolicy.PolicyDescending,
    begin_eq_end_of_empty sort ops hs a OrderPolicy.PolicySideCross,
    begin_eq_end_of_empty sort ops hs a OrderPolicy.PolicyMiddleOut⟩, ?_⟩
  intro x hlt hgt P
  have hb := build_singleton sort ops hs x hlt hgt P
  refine ⟨hb, ?_⟩
  intro fuel hf
  have h := traverse_eq sort ops P (MyContainer.mk a [x]) fuel
    (by rw [hb]; intro i hi; rw [List.mem_singleton] at hi; subst hi; exact Nat.zero_lt_one)
    (by rw [hb]; exact hf)
  rw [h, hb]
  rfl

/-- C16 with insertion sort for `std::sort`, and the single element `99` of the test-suite. -/
theorem edge_sizes_empty_and_single_witness :
    (∀ P : OrderPolicy, P.build insertionSort intOps [] ([] : List Int) = []) ∧
    ∀ P : OrderPolicy,
      P.build insertionSort intOps [] [99] = [0] ∧
      ∀ fuel, 1 < fuel →
        (MyContainer.mk 0 ([99] : List Int)).traverse insertionSort intOps P fuel = some [99] :=
  ⟨(edge_sizes_empty_and_single insertionSort intOps insertionSort_contract 0).1.2.1,
    (edge_sizes_empty_and_single insertionSort intOps insertionSort_contract 0).2 99
      (by decide) (by decide)⟩

/-- C17: for every container with elements `e0 .. e(n-1)` in storage order, `operator<<` appends
to the stream `[`, then the renderings of `e0 .. e(n-1)` in that order joined by `, ` (a
separator between neighbours only, none after the last), then `]`; the empty container renders
as `[]`.  The container is a `const` argument of the call: it is read and has no new state. -/
theorem rendering_is_bracketed_comma_list {T : Type} (render : T → String) (os : String)
    (c : MyContainer T) :
    MyContainer.operator_lshift render os c = os ++ renderSpec render c.data_ ∧
    MyContainer.operator_lshift render "" c
      = "[" ++ ", ".intercalate (c.data_.map render) ++ "]" ∧
    ∀ a : Nat, MyContainer.operator_lshift render "" (⟨a, []⟩ : MyContainer T) = "[]" := by
  have h : ∀ (os : String) (c : MyContainer T),
      MyContainer.operator_lshift render os c = os ++ renderSpec render c.data_ := by
    intro os c
    simp only [MyContainer.operator_lshift, renderSpec]
    rw [MyContainer.printLoop_eq render c.data_ _ 0 _ rfl, List.drop_zero]
    simp [String.append_assoc]
  refine ⟨h os c, ?_, ?_⟩
  · rw [h "" c, String.empty_append]
    rfl
  · intro a
    rw [h "" ⟨a, []⟩]
    rfl

/-- C17 on the container holding `3, 1, 4` of the test-suite. -/
theorem rendering_is_bracketed_comma_list_witness :
    renderSpec renderInt [3, 1, 4] = "[3, 1, 4]" ∧
    MyContainer.operator_lshift renderInt "" ⟨0, [3, 1, 4]⟩
      = "" ++ renderSpec renderInt [3, 1, 4] :=
  ⟨by decide, (rendering_is_bracketed_comma_list renderInt "" ⟨0, [3, 1, 4]⟩).1⟩

/-- C18: for every list of pairwise distinct values, adding all of them to an empty container
with `addElement` and then calling `removeElement` once for each, in the same order, never
throws and leaves the container empty. -/
theorem add_then_remove_each_leaves_empty {T : Type} (ops : ElemOps T) (a : Nat)
    (values : List T) (hrefl : ∀ x ∈ values, ops.eq x x = true)
    (hd : values.Pairwise (fun x y => ops.eq y x = false)) :
    ∃ c : MyContainer T,
      MyContainer.removeEach ops (MyContainer.addEach ⟨a, []⟩ values) values = Except.ok c ∧
      c.size = 0 ∧ c.data_ = [] := by
  have hadd : MyContainer.addEach ⟨a, []⟩ values = ⟨a, values⟩ := by
    have h := MyContainer.addEach_data values ⟨a, []⟩
    cases hc : MyContainer.addEach ⟨a, []⟩ values with
    | mk t d =>
      rw [hc] at h
      simp only [List.nil_append] at h
      rw [h.1, h.2]
  refine ⟨⟨a, []⟩, ?_, rfl, rfl⟩
  rw [hadd]
  exact MyContainer.removeEach_self ops a values hrefl hd

/-- C18 on the values `0, 1, 2, 3, 4, 5, 6, 7` (the test-suite runs `0 .. 499`). -/
theorem add_then_remove_each_leaves_empty_witness :
    ∃ c : MyContainer Int,
      MyContainer.removeEach intOps (MyContainer.addEach ⟨0, []⟩ [0, 1, 2, 3, 4, 5, 6, 7])
        [0, 1, 2, 3, 4, 5, 6, 7] = Except.ok c ∧
      c.size = 0 ∧ c.data_ = [] :=
  add_then_remove_each_leaves_empty intOps 0 [0, 1, 2, 3, 4, 5, 6, 7] (by decide) (by decide)

/-- C19 (fails on the code): `removeElement` hands its `const T&` argument on to `std::remove`,
which reads it again at every comparison while it overwrites the vector.  In the container
holding `1, 2, 1, 2`, the call `c.removeElement(*c.begin_order())` refers to slot 0 (value `1`):
it returns, but leaves `2, 1` and not the contents with every `1` filtered out (`2, 2`); an
element equal to `1` is still stored and an element `2` is gone. -/
theorem removeElement_of_stored_element_leaves_a_match :
    (MyContainer.begin_order insertionSort intOps (⟨0, [1, 2, 1, 2]⟩ : MyContainer Int)).ref
      = some (ConstRef.element 0) ∧
    (ConstRef.element 0 : ConstRef Int).read [1, 2, 1, 2] = some 1 ∧
    std_remove intOps [1, 2, 1, 2] (ConstRef.element 0) = ([2, 1, 1, 2], 2) ∧
    MyContainer.removeElement intOps ⟨0, [1, 2, 1, 2]⟩ (ConstRef.element 0)
      = Except.ok ⟨0, [2, 1]⟩ ∧
    ([1, 2, 1, 2] : List Int).filter (fun x => !(intOps.eq x 1)) = [2, 2] ∧
    ([2, 1] : List Int) ≠ ([1, 2, 1, 2] : List Int).filter (fun x => !(intOps.eq x 1)) ∧
    (∃ x ∈ ([2, 1] : List Int), intOps.eq x 1 = true) := by
  refine ⟨rfl, rfl, by decide, rfl, by decide, by decide, by decide⟩

/-- C20: for every container of `n` elements and each of the six policies, every entry of the
built permutation is an index below `n` and no index occurs twice, so the permutation has at most
`n` entries; and for an unmodified container, the iterator reached from `begin` by `pos` steps,
`pos` below the permutation's length, dereferences to a stored element: the read never leaves
the backing store. -/
theorem every_policy_indexes_inside_the_store {T : Type} (sort : SortFn) (ops : ElemOps T)
    (c : MyContainer T) (hs : SortContract sort) (hw : StrictWeakOrder ops.lt)
    (hwg : StrictWeakOrder ops.gt) (P : OrderPolicy) :
    (∀ i ∈ P.build sort ops [] c.data_, i < c.size) ∧
    (P.build sort ops [] c.data_).Nodup ∧
    (P.build sort ops [] c.data_).length ≤ c.size ∧
    ∀ pos, pos < (P.build sort ops [] c.data_).length →
      ∃ (i : Nat) (x : T),
        (P.build sort ops [] c.data_)[pos]? = some i ∧ i < c.size ∧ c.data_[i]? = some x ∧
        (Nat.iterate Iterator.next pos (c.begin_ sort ops P)).deref = some x := by
  obtain ⟨hin, hnd⟩ := build_inside sort ops c.data_ hs hw hwg P
  refine ⟨hin, hnd, ?_, ?_⟩
  · have hsub : P.build sort ops [] c.data_ ⊆ List.range c.size :=
      fun i hi => List.mem_range.mpr (hin i hi)
    have := (hnd.subperm hsub).length_le
    rw [List.length_range] at this
    exact this
  · intro pos hpos
    have hi : (P.build sort ops [] c.data_)[pos] < c.data_.length :=
      hin _ (List.getElem_mem _)
    refine ⟨(P.build sort ops [] c.data_)[pos], c.data_[(P.build sort ops [] c.data_)[pos]],
      List.getElem?_eq_getElem hpos, hi, List.getElem?_eq_getElem hi, ?_⟩
    rw [iterate_next]
    simp only [MyContainer.begin_, Iterator.new, Iterator.deref, if_false, Nat.zero_add,
      List.getElem?_eq_getElem hpos, List.getElem?_eq_getElem hi, Bool.false_eq_true]

/-- C20 for the SideCross policy on the even-sized data `10, 20, 30, 40`: three entries, all
below 4, none twice. -/
theorem every_policy_indexes_inside_the_store_witness :
    (∀ i ∈ OrderPolicy.PolicySideCross.build insertionSort intOps [] ([10, 20, 30, 40] : List Int),
      i < 4) ∧
    (OrderPolicy.PolicySideCross.build insertionSort intOps []
      ([10, 20, 30, 40] : List Int)).Nodup ∧
    (OrderPolicy.PolicySideCross.build insertionSort intOps []
      ([10, 20, 30, 40] : List Int)).length ≤ 4 ∧
    ∀ pos, pos < (OrderPolicy.PolicySideCross.build insertionSort intOps []
        ([10, 20, 30, 40] : List Int)).length →
      ∃ (i : Nat) (x : Int),
        (OrderPolicy.PolicySideCross.build insertionSort intOps []
          ([10, 20, 30, 40] : List Int))[pos]? = some i ∧
        i < 4 ∧ ([10, 20, 30, 40] : List Int)[i]? = some x ∧
        (Nat.iterate Iterator.next pos
          ((MyContainer.mk 0 ([10, 20, 30, 40] : List Int)).begin_ insertionSort intOps
            OrderPolicy.PolicySideCross)).deref = some x :=
  every_policy_indexes_inside_the_store insertionSort intOps ⟨0, [10, 20, 30, 40]⟩
    insertionSort_contract intOps_total.strictWeak intOps_total.strictWeak_gt
    OrderPolicy.PolicySideCross

end ariel
